import Mathlib

/-!
Formal model of the s3blk policy-pluggable cache engine
(`targets/cache/policy_traits.h`, `cache_manager.h` as embedded in
`cache_performance_test.cpp`) and of the page-server request loop
(`targets/pageserver/pageserver.cpp`).

The C++ `std::unordered_map` is modelled as an association list with
unique keys; `operator[]` (which default-inserts) is modelled by
`mrefD`.  Intrusive-list link fields keep the source's `int` type with
`-1` sentinels.  Machine words never overflow in the modelled code
paths except where noted (`validate_request`), so keys, values and
counters are `Nat`.
-/

set_option autoImplicit false

/-- Association-list lookup: first binding of key `k`. -/
def mfind {β : Type} (k : Nat) : List (Nat × β) → Option β
  | [] => none
  | (a, v) :: rest => if a = k then some v else mfind k rest

/-- Association-list update: replace the binding of `k` in place, or
append a fresh binding (models `unordered_map::operator[] =`). -/
def mset {β : Type} (k : Nat) (v : β) : List (Nat × β) → List (Nat × β)
  | [] => [(k, v)]
  | (a, w) :: rest => if a = k then (k, v) :: rest else (a, w) :: mset k v rest

/-- Association-list erase of the binding of `k` (models `erase`). -/
def merase {β : Type} (k : Nat) : List (Nat × β) → List (Nat × β)
  | [] => []
  | (a, w) :: rest => if a = k then rest else (a, w) :: merase k rest

/-- Models `unordered_map::count(k) > 0`. -/
def mcontains {β : Type} (k : Nat) (m : List (Nat × β)) : Bool :=
  (mfind k m).isSome

/-- Models a read through `unordered_map::operator[]`: returns the bound
value, default-inserting `d` when the key is absent. -/
def mrefD {β : Type} (k : Nat) (d : β) (m : List (Nat × β)) : β × List (Nat × β) :=
  match mfind k m with
  | some v => (v, m)
  | none => (d, mset k d m)

/-- `CacheEntry` of `policy_traits.h`: the base fields shared by every
policy.  The policy-specific fields added by each policy's `Entry`
subclass live in the payload `pol`. -/
structure CacheEntry (π : Type) where
  key : Nat
  value : Nat
  dirty : Bool
  valid : Bool
  index : Nat
  pin_count : Int
  pol : π
deriving DecidableEq

/-- The C++ default constructor of `CacheEntry` (key 0, value 0, clean,
invalid, index 0, unpinned) extended with the payload's default
constructor. -/
instance instInhabitedCacheEntry {π : Type} [Inhabited π] : Inhabited (CacheEntry π) :=
  ⟨{ key := 0, value := 0, dirty := false, valid := false, index := 0,
     pin_count := 0, pol := default }⟩

/-- Read `entries[i]` through an `int` index (C++ guards every such read
with `!= -1`; out-of-range reads yield the default entry). -/
def getE {π : Type} [Inhabited π] (es : Array (CacheEntry π)) (i : Int) : CacheEntry π :=
  es.getD i.toNat default

/-- Write only the policy payload of `entries[i]` (policy code never
touches the base fields). -/
def updPolAt {π : Type} [Inhabited π] (es : Array (CacheEntry π)) (i : Int)
    (f : π → π) : Array (CacheEntry π) :=
  if h : i.toNat < es.size then
    es.set ⟨i.toNat, h⟩ { es.get ⟨i.toNat, h⟩ with pol := f (es.get ⟨i.toNat, h⟩).pol }
  else es

/-- Apply `f` to `entries[i]` (manager-side writes through a
reference; out-of-range writes are dropped). -/
def setEntry {π : Type} (es : Array (CacheEntry π)) (i : Nat)
    (f : CacheEntry π → CacheEntry π) : Array (CacheEntry π) :=
  if h : i < es.size then es.set ⟨i, h⟩ (f (es.get ⟨i, h⟩)) else es

/-- Set the `valid` flag of `entries[i]` (manager code). -/
def setValidAt {π : Type} (es : Array (CacheEntry π)) (i : Nat) (b : Bool) :
    Array (CacheEntry π) :=
  setEntry es i (fun e => { e with valid := b })

/-- The static policy interface of `policy_traits.h`: entry payload
defaults, the three bookkeeping hooks and the victim scan.  Each
operation receives the slot of the affected entry (the position of the
C++ reference) and returns the updated policy state and slab. -/
structure Policy (σ π : Type) where
  dataInit : σ
  payloadFresh : π
  on_access : σ → Nat → Array (CacheEntry π) → σ × Array (CacheEntry π)
  on_insert : σ → Nat → Array (CacheEntry π) → σ × Array (CacheEntry π)
  on_remove : σ → Nat → Array (CacheEntry π) → σ × Array (CacheEntry π)
  get_eviction_candidate : σ → Array (CacheEntry π) → (CacheEntry π → Bool) →
    Option Nat × σ × Array (CacheEntry π)

namespace LRU

/-- The link fields `LRU::Entry` adds to `CacheEntry`. -/
structure Payload where
  prev : Int := -1
  next : Int := -1
deriving DecidableEq

instance : Inhabited Payload := ⟨{}⟩

/-- `LRU::ManagerData`. -/
structure ManagerData where
  head : Int := -1
  tail : Int := -1
deriving DecidableEq

/-- `LRU::on_access`: move the entry to the list head. -/
def on_access (m : ManagerData) (i : Nat) (es0 : Array (CacheEntry Payload)) :
    ManagerData × Array (CacheEntry Payload) :=
  let e := getE es0 i
  if m.head = (e.index : Int) then (m, es0) else
  let es1 := if e.pol.prev ≠ -1 then
    updPolAt es0 e.pol.prev (fun p => { p with next := e.pol.next }) else es0
  let e1 := getE es1 i
  let es2 := if e1.pol.next ≠ -1 then
    updPolAt es1 e1.pol.next (fun p => { p with prev := e1.pol.prev }) else es1
  let m1 := if m.tail = ((getE es2 i).index : Int) then
    { m with tail := (getE es2 i).pol.prev } else m
  let es3 := updPolAt es2 (i : Int) (fun p => { p with prev := -1, next := m1.head })
  let es4 := if m1.head ≠ -1 then
    updPolAt es3 m1.head (fun p => { p with prev := ((getE es3 i).index : Int) }) else es3
  let m2 := { m1 with head := ((getE es4 i).index : Int) }
  let m3 := if m2.tail = -1 then { m2 with tail := ((getE es4 i).index : Int) } else m2
  (m3, es4)

/-- `LRU::on_insert`: push the entry at the list head. -/
def on_insert (m : ManagerData) (i : Nat) (es0 : Array (CacheEntry Payload)) :
    ManagerData × Array (CacheEntry Payload) :=
  let es1 := updPolAt es0 (i : Int) (fun p => { p with prev := -1, next := m.head })
  let es2 := if m.head ≠ -1 then
    updPolAt es1 m.head (fun p => { p with prev := ((getE es1 i).index : Int) }) else es1
  let m1 := { m with head := ((getE es2 i).index : Int) }
  let m2 := if m1.tail = -1 then { m1 with tail := ((getE es2 i).index : Int) } else m1
  (m2, es2)

/-- `LRU::on_remove`: unlink the entry. -/
def on_remove (m : ManagerData) (i : Nat) (es0 : Array (CacheEntry Payload)) :
    ManagerData × Array (CacheEntry Payload) :=
  let e := getE es0 i
  let es1 := if e.pol.prev ≠ -1 then
    updPolAt es0 e.pol.prev (fun p => { p with next := e.pol.next }) else es0
  let e1 := getE es1 i
  let es2 := if e1.pol.next ≠ -1 then
    updPolAt es1 e1.pol.next (fun p => { p with prev := e1.pol.prev }) else es1
  let m1 := if m.head = ((getE es2 i).index : Int) then
    { m with head := (getE es2 i).pol.next } else m
  let m2 := if m1.tail = ((getE es2 i).index : Int) then
    { m1 with tail := (getE es2 i).pol.prev } else m1
  let es3 := updPolAt es2 (i : Int) (fun p => { p with prev := -1, next := -1 })
  (m2, es3)

/-- The tail-to-head walk of `LRU::get_eviction_candidate`, fuelled. -/
def scanPrev (es : Array (CacheEntry Payload)) (can : CacheEntry Payload → Bool) :
    Nat → Int → Option Nat
  | 0, _ => none
  | fuel + 1, idx =>
    if idx = -1 then none
    else
      let e := getE es idx
      if can e then some idx.toNat else scanPrev es can fuel e.pol.prev

/-- `LRU::get_eviction_candidate`: first eligible entry from the tail. -/
def get_eviction_candidate (m : ManagerData) (es : Array (CacheEntry Payload))
    (can : CacheEntry Payload → Bool) :
    Option Nat × ManagerData × Array (CacheEntry Payload) :=
  (scanPrev es can (es.size + 1) m.tail, m, es)

end LRU

/-- The `LRU` policy packaged for the generic manager. -/
def lruPolicy : Policy LRU.ManagerData LRU.Payload where
  dataInit := {}
  payloadFresh := {}
  on_access := LRU.on_access
  on_insert := LRU.on_insert
  on_remove := LRU.on_remove
  get_eviction_candidate := LRU.get_eviction_candidate

namespace FIFO

/-- The link fields `FIFO::Entry` adds to `CacheEntry`. -/
structure Payload where
  prev : Int := -1
  next : Int := -1
deriving DecidableEq

instance : Inhabited Payload := ⟨{}⟩

/-- `FIFO::ManagerData`. -/
structure ManagerData where
  head : Int := -1
  tail : Int := -1
deriving DecidableEq

/-- `FIFO::on_access` is a no-op. -/
def on_access (m : ManagerData) (_ : Nat) (es : Array (CacheEntry Payload)) :
    ManagerData × Array (CacheEntry Payload) :=
  (m, es)

/-- `FIFO::on_insert`: append at the list tail. -/
def on_insert (m : ManagerData) (i : Nat) (es0 : Array (CacheEntry Payload)) :
    ManagerData × Array (CacheEntry Payload) :=
  let es1 := updPolAt es0 (i : Int) (fun p => { p with prev := m.tail, next := -1 })
  let es2 := if m.tail ≠ -1 then
    updPolAt es1 m.tail (fun p => { p with next := ((getE es1 i).index : Int) }) else es1
  let m1 := { m with tail := ((getE es2 i).index : Int) }
  let m2 := if m1.head = -1 then { m1 with head := ((getE es2 i).index : Int) } else m1
  (m2, es2)

/-- `FIFO::on_remove`: unlink the entry. -/
def on_remove (m : ManagerData) (i : Nat) (es0 : Array (CacheEntry Payload)) :
    ManagerData × Array (CacheEntry Payload) :=
  let e := getE es0 i
  let es1 := if e.pol.prev ≠ -1 then
    updPolAt es0 e.pol.prev (fun p => { p with next := e.pol.next }) else es0
  let e1 := getE es1 i
  let es2 := if e1.pol.next ≠ -1 then
    updPolAt es1 e1.pol.next (fun p => { p with prev := e1.pol.prev }) else es1
  let m1 := if m.head = ((getE es2 i).index : Int) then
    { m with head := (getE es2 i).pol.next } else m
  let m2 := if m1.tail = ((getE es2 i).index : Int) then
    { m1 with tail := (getE es2 i).pol.prev } else m1
  let es3 := updPolAt es2 (i : Int) (fun p => { p with prev := -1, next := -1 })
  (m2, es3)

/-- The head-to-tail walk of `FIFO::get_eviction_candidate`, fuelled. -/
def scanNext (es : Array (CacheEntry Payload)) (can : CacheEntry Payload → Bool) :
    Nat → Int → Option Nat
  | 0, _ => none
  | fuel + 1, idx =>
    if idx = -1 then none
    else
      let e := getE es idx
      if can e then some idx.toNat else scanNext es can fuel e.pol.next

/-- `FIFO::get_eviction_candidate`: first eligible entry from the head. -/
def get_eviction_candidate (m : ManagerData) (es : Array (CacheEntry Payload))
    (can : CacheEntry Payload → Bool) :
    Option Nat × ManagerData × Array (CacheEntry Payload) :=
  (scanNext es can (es.size + 1) m.head, m, es)

end FIFO

/-- The `FIFO` policy packaged for the generic manager. -/
def fifoPolicy : Policy FIFO.ManagerData FIFO.Payload where
  dataInit := {}
  payloadFresh := {}
  on_access := FIFO.on_access
  on_insert := FIFO.on_insert
  on_remove := FIFO.on_remove
  get_eviction_candidate := FIFO.get_eviction_candidate

namespace LFU

/-- The fields `LFU::Entry` adds to `CacheEntry`.  The default
constructor leaves `access_count = 0`; the value constructor used by
`create_entry` starts at 1 (see `payloadFresh`). -/
structure Payload where
  access_count : Nat := 0
  next_in_bucket : Int := -1
  prev_in_bucket : Int := -1
deriving DecidableEq

instance : Inhabited Payload := ⟨{}⟩

/-- `LFU::ManagerData`: frequency buckets (count → head/tail slot) and
the tracked minimum count. -/
structure ManagerData where
  bucket_heads : List (Nat × Int) := []
  bucket_tails : List (Nat × Int) := []
  min_count : Nat := 1
deriving DecidableEq

/-- `LFU::on_access`: relink from the `old_count` bucket to the tail of
the `old_count + 1` bucket; advance `min_count` by one when the old
bucket empties. -/
def on_access (m : ManagerData) (i : Nat) (es0 : Array (CacheEntry Payload)) :
    ManagerData × Array (CacheEntry Payload) :=
  let e := getE es0 i
  let old_count := e.pol.access_count
  let es1 := if e.pol.prev_in_bucket ≠ -1 then
    updPolAt es0 e.pol.prev_in_bucket
      (fun p => { p with next_in_bucket := e.pol.next_in_bucket }) else es0
  let e1 := getE es1 i
  let es2 := if e1.pol.next_in_bucket ≠ -1 then
    updPolAt es1 e1.pol.next_in_bucket
      (fun p => { p with prev_in_bucket := e1.pol.prev_in_bucket }) else es1
  let e2 := getE es2 i
  let hv := mrefD old_count 0 m.bucket_heads
  let heads1 := if hv.1 = (e2.index : Int) then
    mset old_count e2.pol.next_in_bucket hv.2 else hv.2
  let tv := mrefD old_count 0 m.bucket_tails
  let tails1 := if tv.1 = (e2.index : Int) then
    mset old_count e2.pol.prev_in_bucket tv.2 else tv.2
  let hv2 := mrefD old_count 0 heads1
  let heads2 := if hv2.1 = -1 then merase old_count hv2.2 else hv2.2
  let tails2 := if hv2.1 = -1 then merase old_count tails1 else tails1
  let mc1 := if hv2.1 = -1 ∧ m.min_count = old_count then m.min_count + 1 else m.min_count
  let es3 := updPolAt es2 (i : Int) (fun p => { p with access_count := p.access_count + 1 })
  let nc := (getE es3 i).pol.access_count
  let newPrev := if mcontains nc tails2 then (mfind nc tails2).getD 0 else -1
  let es4 := updPolAt es3 (i : Int)
    (fun p => { p with prev_in_bucket := newPrev, next_in_bucket := -1 })
  let es5 := if newPrev ≠ -1 then
    updPolAt es4 newPrev (fun p => { p with next_in_bucket := ((getE es4 i).index : Int) })
    else es4
  let tails3 := mset nc ((getE es5 i).index : Int) tails2
  let heads3 := if ¬ mcontains nc heads2 then
    mset nc ((getE es5 i).index : Int) heads2 else heads2
  let mc2 := if mc1 > nc ∨ heads3 = [] then nc else mc1
  ({ bucket_heads := heads3, bucket_tails := tails3, min_count := mc2 }, es5)

/-- `LFU::on_insert`: set count 1 and append at the tail of bucket 1;
`min_count` is reset to 1. -/
def on_insert (m : ManagerData) (i : Nat) (es0 : Array (CacheEntry Payload)) :
    ManagerData × Array (CacheEntry Payload) :=
  let es1 := updPolAt es0 (i : Int) (fun p => { p with access_count := 1 })
  let newPrev := if mcontains 1 m.bucket_tails then (mfind 1 m.bucket_tails).getD 0 else -1
  let es2 := updPolAt es1 (i : Int)
    (fun p => { p with prev_in_bucket := newPrev, next_in_bucket := -1 })
  let es3 := if newPrev ≠ -1 then
    updPolAt es2 newPrev (fun p => { p with next_in_bucket := ((getE es2 i).index : Int) })
    else es2
  let tails1 := mset 1 ((getE es3 i).index : Int) m.bucket_tails
  let heads1 := if ¬ mcontains 1 m.bucket_heads then
    mset 1 ((getE es3 i).index : Int) m.bucket_heads else m.bucket_heads
  ({ bucket_heads := heads1, bucket_tails := tails1, min_count := 1 }, es3)

/-- `LFU::on_remove`: unlink from the entry's bucket; advance
`min_count` by one when that bucket empties. -/
def on_remove (m : ManagerData) (i : Nat) (es0 : Array (CacheEntry Payload)) :
    ManagerData × Array (CacheEntry Payload) :=
  let e := getE es0 i
  let count := e.pol.access_count
  let es1 := if e.pol.prev_in_bucket ≠ -1 then
    updPolAt es0 e.pol.prev_in_bucket
      (fun p => { p with next_in_bucket := e.pol.next_in_bucket }) else es0
  let e1 := getE es1 i
  let es2 := if e1.pol.next_in_bucket ≠ -1 then
    updPolAt es1 e1.pol.next_in_bucket
      (fun p => { p with prev_in_bucket := e1.pol.prev_in_bucket }) else es1
  let e2 := getE es2 i
  let hv := mrefD count 0 m.bucket_heads
  let heads1 := if hv.1 = (e2.index : Int) then
    mset count e2.pol.next_in_bucket hv.2 else hv.2
  let tv := mrefD count 0 m.bucket_tails
  let tails1 := if tv.1 = (e2.index : Int) then
    mset count e2.pol.prev_in_bucket tv.2 else tv.2
  let hv2 := mrefD count 0 heads1
  let heads2 := if hv2.1 = -1 then merase count hv2.2 else hv2.2
  let tails2 := if hv2.1 = -1 then merase count tails1 else tails1
  let mc1 := if hv2.1 = -1 ∧ m.min_count = count then m.min_count + 1 else m.min_count
  let es3 := updPolAt es2 (i : Int)
    (fun p => { p with prev_in_bucket := -1, next_in_bucket := -1 })
  ({ bucket_heads := heads2, bucket_tails := tails2, min_count := mc1 }, es3)

/-- The in-bucket walk of `LFU::get_eviction_candidate`, fuelled. -/
def scanBucket (es : Array (CacheEntry Payload)) (can : CacheEntry Payload → Bool) :
    Nat → Int → Option Nat
  | 0, _ => none
  | fuel + 1, idx =>
    if idx = -1 then none
    else
      let e := getE es idx
      if can e then some idx.toNat else scanBucket es can fuel e.pol.next_in_bucket

/-- `LFU::get_eviction_candidate`: walk the `min_count` bucket from its
head.  Note the C++ reads `bucket_heads[min_count]` through
`operator[]`, default-inserting head `0` when that bucket is absent. -/
def get_eviction_candidate (m : ManagerData) (es : Array (CacheEntry Payload))
    (can : CacheEntry Payload → Bool) :
    Option Nat × ManagerData × Array (CacheEntry Payload) :=
  if m.bucket_heads = [] then (none, m, es)
  else
    let hv := mrefD m.min_count 0 m.bucket_heads
    (scanBucket es can (es.size + 1) hv.1, { m with bucket_heads := hv.2 }, es)

end LFU

/-- The `LFU` policy packaged for the generic manager. -/
def lfuPolicy : Policy LFU.ManagerData LFU.Payload where
  dataInit := {}
  payloadFresh := { access_count := 1 }
  on_access := LFU.on_access
  on_insert := LFU.on_insert
  on_remove := LFU.on_remove
  get_eviction_candidate := LFU.get_eviction_candidate

namespace CLOCK

/-- The fields `CLOCK::Entry` adds to `CacheEntry`.  The default
constructor clears the reference bit; the value constructor used by
`create_entry` sets it (see `payloadFresh`). -/
structure Payload where
  next : Int := -1
  prev : Int := -1
  reference_bit : Bool := false
deriving DecidableEq

instance : Inhabited Payload := ⟨{}⟩

/-- `CLOCK::ManagerData`: hand plus a tail pointer for O(1) insert. -/
structure ManagerData where
  hand : Int := -1
  tail : Int := -1
deriving DecidableEq

/-- `CLOCK::on_access`: set the reference bit. -/
def on_access (m : ManagerData) (i : Nat) (es : Array (CacheEntry Payload)) :
    ManagerData × Array (CacheEntry Payload) :=
  (m, updPolAt es (i : Int) (fun p => { p with reference_bit := true }))

/-- `CLOCK::on_insert`: insert after the tail of the circular list. -/
def on_insert (m : ManagerData) (i : Nat) (es0 : Array (CacheEntry Payload)) :
    ManagerData × Array (CacheEntry Payload) :=
  if m.hand = -1 then
    let e := getE es0 i
    let es1 := updPolAt es0 (i : Int)
      (fun p => { p with next := (e.index : Int), prev := (e.index : Int) })
    ({ hand := (e.index : Int), tail := (e.index : Int) }, es1)
  else
    let es1 := updPolAt es0 m.tail (fun p => { p with next := ((getE es0 i).index : Int) })
    let es2 := updPolAt es1 (i : Int) (fun p => { p with prev := m.tail, next := m.hand })
    let es3 := updPolAt es2 m.hand (fun p => { p with prev := ((getE es2 i).index : Int) })
    ({ m with tail := ((getE es3 i).index : Int) }, es3)

/-- `CLOCK::on_remove`: O(1) unlink from the circular list. -/
def on_remove (m : ManagerData) (i : Nat) (es0 : Array (CacheEntry Payload)) :
    ManagerData × Array (CacheEntry Payload) :=
  let e := getE es0 i
  if e.pol.next = (e.index : Int) then
    let es1 := updPolAt es0 (i : Int) (fun p => { p with next := -1, prev := -1 })
    ({ hand := -1, tail := -1 }, es1)
  else
    let es1 := updPolAt es0 e.pol.prev (fun p => { p with next := e.pol.next })
    let e1 := getE es1 i
    let es2 := updPolAt es1 e1.pol.next (fun p => { p with prev := e1.pol.prev })
    let m1 := if m.hand = ((getE es2 i).index : Int) then
      { m with hand := (getE es2 i).pol.next } else m
    let m2 := if m1.tail = ((getE es2 i).index : Int) then
      { m1 with tail := (getE es2 i).pol.prev } else m1
    let es3 := updPolAt es2 (i : Int) (fun p => { p with next := -1, prev := -1 })
    (m2, es3)

/-- The fuelled two-pass hand walk of `CLOCK::get_eviction_candidate`:
an eligible entry with a clear reference bit is the victim; eligible
entries with the bit set get it cleared (second chance).  Returns the
victim (if any), the final hand and the updated slab. -/
def scanLoop (can : CacheEntry Payload → Bool) (start : Int) :
    Nat → Array (CacheEntry Payload) → Int → Nat →
    Option Nat × Int × Array (CacheEntry Payload)
  | 0, es, hand, _ => (none, hand, es)
  | fuel + 1, es, hand, pass =>
    let e := getE es hand
    if can e ∧ e.pol.reference_bit = false then
      (some hand.toNat, e.pol.next, es)
    else
      let es1 := if can e then
        updPolAt es hand (fun p => { p with reference_bit := false }) else es
      let hand1 := (getE es1 hand).pol.next
      if hand1 = start then
        if pass + 1 = 2 then (none, hand1, es1)
        else scanLoop can start fuel es1 hand1 (pass + 1)
      else scanLoop can start fuel es1 hand1 pass

/-- `CLOCK::get_eviction_candidate`. -/
def get_eviction_candidate (m : ManagerData) (es : Array (CacheEntry Payload))
    (can : CacheEntry Payload → Bool) :
    Option Nat × ManagerData × Array (CacheEntry Payload) :=
  if m.hand = -1 then (none, m, es)
  else
    let r := scanLoop can m.hand (2 * es.size + 2) es m.hand 0
    (r.1, { m with hand := r.2.1 }, r.2.2)

end CLOCK

/-- The `CLOCK` policy packaged for the generic manager. -/
def clockPolicy : Policy CLOCK.ManagerData CLOCK.Payload where
  dataInit := {}
  payloadFresh := { reference_bit := true }
  on_access := CLOCK.on_access
  on_insert := CLOCK.on_insert
  on_remove := CLOCK.on_remove
  get_eviction_candidate := CLOCK.get_eviction_candidate

namespace SIEVE

/-- The fields `SIEVE::Entry` adds to `CacheEntry`.  The value
constructor sets `visited` (see `payloadFresh`). -/
structure Payload where
  next : Int := -1
  prev : Int := -1
  visited : Bool := false
deriving DecidableEq

instance : Inhabited Payload := ⟨{}⟩

/-- `SIEVE::ManagerData`. -/
structure ManagerData where
  hand : Int := -1
  tail : Int := -1
deriving DecidableEq

/-- `SIEVE::on_access`: set the visited bit. -/
def on_access (m : ManagerData) (i : Nat) (es : Array (CacheEntry Payload)) :
    ManagerData × Array (CacheEntry Payload) :=
  (m, updPolAt es (i : Int) (fun p => { p with visited := true }))

/-- `SIEVE::on_insert`: insert after the tail of the circular list. -/
def on_insert (m : ManagerData) (i : Nat) (es0 : Array (CacheEntry Payload)) :
    ManagerData × Array (CacheEntry Payload) :=
  if m.hand = -1 then
    let e := getE es0 i
    let es1 := updPolAt es0 (i : Int)
      (fun p => { p with next := (e.index : Int), prev := (e.index : Int) })
    ({ hand := (e.index : Int), tail := (e.index : Int) }, es1)
  else
    let es1 := updPolAt es0 m.tail (fun p => { p with next := ((getE es0 i).index : Int) })
    let es2 := updPolAt es1 (i : Int) (fun p => { p with prev := m.tail, next := m.hand })
    let es3 := updPolAt es2 m.hand (fun p => { p with prev := ((getE es2 i).index : Int) })
    ({ m with tail := ((getE es3 i).index : Int) }, es3)

/-- `SIEVE::on_remove`: O(1) unlink from the circular list. -/
def on_remove (m : ManagerData) (i : Nat) (es0 : Array (CacheEntry Payload)) :
    ManagerData × Array (CacheEntry Payload) :=
  let e := getE es0 i
  if e.pol.next = (e.index : Int) then
    let es1 := updPolAt es0 (i : Int) (fun p => { p with next := -1, prev := -1 })
    ({ hand := -1, tail := -1 }, es1)
  else
    let es1 := updPolAt es0 e.pol.prev (fun p => { p with next := e.pol.next })
    let e1 := getE es1 i
    let es2 := updPolAt es1 e1.pol.next (fun p => { p with prev := e1.pol.prev })
    let m1 := if m.hand = ((getE es2 i).index : Int) then
      { m with hand := (getE es2 i).pol.next } else m
    let m2 := if m1.tail = ((getE es2 i).index : Int) then
      { m1 with tail := (getE es2 i).pol.prev } else m1
    let es3 := updPolAt es2 (i : Int) (fun p => { p with next := -1, prev := -1 })
    (m2, es3)

/-- The fuelled two-pass hand walk of `SIEVE::get_eviction_candidate`:
an eligible unvisited entry is the victim; eligible visited entries get
`visited` cleared. -/
def scanLoop (can : CacheEntry Payload → Bool) (start : Int) :
    Nat → Array (CacheEntry Payload) → Int → Nat →
    Option Nat × Int × Array (CacheEntry Payload)
  | 0, es, hand, _ => (none, hand, es)
  | fuel + 1, es, hand, pass =>
    let e := getE es hand
    if can e ∧ e.pol.visited = false then
      (some hand.toNat, e.pol.next, es)
    else
      let es1 := if can e then
        updPolAt es hand (fun p => { p with visited := false }) else es
      let hand1 := (getE es1 hand).pol.next
      if hand1 = start then
        if pass + 1 = 2 then (none, hand1, es1)
        else scanLoop can start fuel es1 hand1 (pass + 1)
      else scanLoop can start fuel es1 hand1 pass

/-- `SIEVE::get_eviction_candidate`. -/
def get_eviction_candidate (m : ManagerData) (es : Array (CacheEntry Payload))
    (can : CacheEntry Payload → Bool) :
    Option Nat × ManagerData × Array (CacheEntry Payload) :=
  if m.hand = -1 then (none, m, es)
  else
    let r := scanLoop can m.hand (2 * es.size + 2) es m.hand 0
    (r.1, { m with hand := r.2.1 }, r.2.2)

end SIEVE

/-- The `SIEVE` policy packaged for the generic manager. -/
def sievePolicy : Policy SIEVE.ManagerData SIEVE.Payload where
  dataInit := {}
  payloadFresh := { visited := true }
  on_access := SIEVE.on_access
  on_insert := SIEVE.on_insert
  on_remove := SIEVE.on_remove
  get_eviction_candidate := SIEVE.get_eviction_candidate

namespace ARC

/-- The fields `ARC::Entry` adds to `CacheEntry`. -/
structure Payload where
  prev : Int := -1
  next : Int := -1
  in_t1 : Bool := true
deriving DecidableEq

instance : Inhabited Payload := ⟨{}⟩

/-- `ARC::ManagerData`.  Note the C++ initialises `p = 0` and
`capacity = 0`, and no code in the repository ever assigns
`capacity`. -/
structure ManagerData where
  t1_head : Int := -1
  t1_tail : Int := -1
  t2_head : Int := -1
  t2_tail : Int := -1
  b1_ghost : List (Nat × Bool) := []
  b2_ghost : List (Nat × Bool) := []
  p : Int := 0
  capacity : Int := 0
deriving DecidableEq

/-- `ARC::add_to_list_head` (returns the new head/tail and slab). -/
def add_to_list_head (head tail : Int) (i : Nat) (es0 : Array (CacheEntry Payload)) :
    Int × Int × Array (CacheEntry Payload) :=
  let es1 := updPolAt es0 (i : Int) (fun p => { p with next := head, prev := -1 })
  let es2 := if head ≠ -1 then
    updPolAt es1 head (fun p => { p with prev := ((getE es1 i).index : Int) }) else es1
  let head1 := ((getE es2 i).index : Int)
  let tail1 := if tail = -1 then ((getE es2 i).index : Int) else tail
  (head1, tail1, es2)

/-- `ARC::remove_from_list` (returns the new head/tail and slab). -/
def remove_from_list (head tail : Int) (i : Nat) (es0 : Array (CacheEntry Payload)) :
    Int × Int × Array (CacheEntry Payload) :=
  let e := getE es0 i
  let es1 := if e.pol.prev ≠ -1 then
    updPolAt es0 e.pol.prev (fun p => { p with next := e.pol.next }) else es0
  let e1 := getE es1 i
  let es2 := if e1.pol.next ≠ -1 then
    updPolAt es1 e1.pol.next (fun p => { p with prev := e1.pol.prev }) else es1
  let head1 := if head = ((getE es2 i).index : Int) then (getE es2 i).pol.next else head
  let tail1 := if tail = ((getE es2 i).index : Int) then (getE es2 i).pol.prev else tail
  let es3 := updPolAt es2 (i : Int) (fun p => { p with prev := -1, next := -1 })
  (head1, tail1, es3)

/-- `ARC::on_access`: promote a T1 hit to the MRU of T2; refresh a T2
hit at the MRU of T2. -/
def on_access (m : ManagerData) (i : Nat) (es0 : Array (CacheEntry Payload)) :
    ManagerData × Array (CacheEntry Payload) :=
  let e := getE es0 i
  if e.pol.in_t1 then
    let r1 := remove_from_list m.t1_head m.t1_tail i es0
    let r2 := add_to_list_head m.t2_head m.t2_tail i r1.2.2
    let es := updPolAt r2.2.2 (i : Int) (fun p => { p with in_t1 := false })
    ({ m with t1_head := r1.1, t1_tail := r1.2.1, t2_head := r2.1, t2_tail := r2.2.1 }, es)
  else
    let r1 := remove_from_list m.t2_head m.t2_tail i es0
    let r2 := add_to_list_head r1.1 r1.2.1 i r1.2.2
    ({ m with t2_head := r2.1, t2_tail := r2.2.1 }, r2.2.2)

/-- `ARC::on_insert`: a ghost hit in B1 raises `p` (clamped at
`m.capacity`), a ghost hit in B2 lowers it (clamped at 0); ghost hits
go to the MRU of T2, fresh keys to the MRU of T1. -/
def on_insert (m : ManagerData) (i : Nat) (es0 : Array (CacheEntry Payload)) :
    ManagerData × Array (CacheEntry Payload) :=
  let e := getE es0 i
  let in_b1 := mcontains e.key m.b1_ghost
  let in_b2 := mcontains e.key m.b2_ghost
  if in_b1 then
    let p1 := min (m.p + max 1 (Int.ofNat (m.b2_ghost.length / m.b1_ghost.length)))
      m.capacity
    let b1 := merase e.key m.b1_ghost
    let r := add_to_list_head m.t2_head m.t2_tail i es0
    let es := updPolAt r.2.2 (i : Int) (fun p => { p with in_t1 := false })
    ({ m with p := p1, b1_ghost := b1, t2_head := r.1, t2_tail := r.2.1 }, es)
  else if in_b2 then
    let p1 := max (m.p - max 1 (Int.ofNat (m.b1_ghost.length / m.b2_ghost.length))) 0
    let b2 := merase e.key m.b2_ghost
    let r := add_to_list_head m.t2_head m.t2_tail i es0
    let es := updPolAt r.2.2 (i : Int) (fun p => { p with in_t1 := false })
    ({ m with p := p1, b2_ghost := b2, t2_head := r.1, t2_tail := r.2.1 }, es)
  else
    let r := add_to_list_head m.t1_head m.t1_tail i es0
    let es := updPolAt r.2.2 (i : Int) (fun p => { p with in_t1 := true })
    ({ m with t1_head := r.1, t1_tail := r.2.1 }, es)

/-- `ARC::on_remove`: unlink from T1 or T2 and record the key in the
matching ghost list.  No size cap is applied to the ghost lists. -/
def on_remove (m : ManagerData) (i : Nat) (es0 : Array (CacheEntry Payload)) :
    ManagerData × Array (CacheEntry Payload) :=
  let e := getE es0 i
  if e.pol.in_t1 then
    let r := remove_from_list m.t1_head m.t1_tail i es0
    ({ m with t1_head := r.1, t1_tail := r.2.1, b1_ghost := mset e.key true m.b1_ghost },
      r.2.2)
  else
    let r := remove_from_list m.t2_head m.t2_tail i es0
    ({ m with t2_head := r.1, t2_tail := r.2.1, b2_ghost := mset e.key true m.b2_ghost },
      r.2.2)

/-- `ARC::count_list`, fuelled. -/
def count_list (es : Array (CacheEntry Payload)) : Nat → Int → Nat
  | 0, _ => 0
  | fuel + 1, idx =>
    if idx = -1 then 0 else 1 + count_list es fuel (getE es idx).pol.next

/-- `ARC::find_evictable_from_tail`, fuelled. -/
def find_evictable_from_tail (es : Array (CacheEntry Payload))
    (can : CacheEntry Payload → Bool) : Nat → Int → Option Nat
  | 0, _ => none
  | fuel + 1, idx =>
    if idx = -1 then none
    else
      let e := getE es idx
      if can e then some idx.toNat else find_evictable_from_tail es can fuel e.pol.prev

/-- `ARC::get_eviction_candidate`: scan T1 (LRU to MRU) when
`|T1| > p` or `|T1| < p`, otherwise T2 when it is non-empty. -/
def get_eviction_candidate (m : ManagerData) (es : Array (CacheEntry Payload))
    (can : CacheEntry Payload → Bool) :
    Option Nat × ManagerData × Array (CacheEntry Payload) :=
  let t1_size := count_list es (es.size + 1) m.t1_head
  let t2_size := count_list es (es.size + 1) m.t2_head
  let r :=
    if (t1_size : Int) > m.p then find_evictable_from_tail es can (es.size + 1) m.t1_tail
    else if (t1_size : Int) = m.p ∧ t2_size > 0 then
      find_evictable_from_tail es can (es.size + 1) m.t2_tail
    else find_evictable_from_tail es can (es.size + 1) m.t1_tail
  (r, m, es)

end ARC

/-- The `ARC` policy packaged for the generic manager. -/
def arcPolicy : Policy ARC.ManagerData ARC.Payload where
  dataInit := {}
  payloadFresh := {}
  on_access := ARC.on_access
  on_insert := ARC.on_insert
  on_remove := ARC.on_remove
  get_eviction_candidate := ARC.get_eviction_candidate

namespace TemplateCacheManager

/-- The state of a `TemplateCacheManager`: primary index
(`cache_map_`), slab (`entries_`), free-slot stack (`free_indices_`,
head = top), policy data and counters.  The `std::vector` stack pushes
at the back, so the model's list head is the vector's back. -/
structure CacheState (σ π : Type) where
  cache_map : List (Nat × Nat)
  entries : Array (CacheEntry π)
  free_indices : List Nat
  policy_data : σ
  cache_size : Nat
  used_entries : Nat
  hits : Nat
  misses : Nat
  evictions : Nat
deriving DecidableEq

variable {σ π : Type} [Inhabited π]

/-- The constructor: `cache_size` default-constructed entries, all
invalid, and the free stack seeded in reverse so slot 0 is drawn
first. -/
def initCache (P : Policy σ π) (c : Nat) : CacheState σ π where
  cache_map := []
  entries := Array.mkArray c default
  free_indices := List.range c
  policy_data := P.dataInit
  cache_size := c
  used_entries := 0
  hits := 0
  misses := 0
  evictions := 0

/-- `can_evict`: valid, unpinned and clean. -/
def can_evict (e : CacheEntry π) : Bool :=
  e.valid && e.pin_count = 0 && !e.dirty

/-- `create_entry`: overwrite slot `idx` with a freshly constructed
entry (valid, clean, unpinned, fresh policy payload). -/
def create_entry (P : Policy σ π) (k v idx : Nat) (es : Array (CacheEntry π)) :
    Array (CacheEntry π) :=
  if h : idx < es.size then
    es.set ⟨idx, h⟩
      { key := k, value := v, dirty := false, valid := true, index := idx,
        pin_count := 0, pol := P.payloadFresh }
  else es

/-- `evict_entry`: ask the policy for an eligible candidate; invalidate
it, count the eviction, unlink it and return its slot to the free
stack.  Returns the victim's slot and key (the caller erases the key
from the primary index). -/
def evict_entry (P : Policy σ π) (s : CacheState σ π) :
    Option (Nat × Nat) × CacheState σ π :=
  match P.get_eviction_candidate s.policy_data s.entries can_evict with
  | (none, pd, es) => (none, { s with policy_data := pd, entries := es })
  | (some i, pd, es) =>
    let e := getE es (i : Int)
    let es1 := setValidAt es i false
    let r := P.on_remove pd i es1
    let s1 := { s with
      policy_data := r.1
      entries := r.2
      used_entries := s.used_entries - 1
      evictions := s.evictions + 1
      free_indices := e.index :: s.free_indices }
    (some (i, e.key), s1)

/-- `lookup`: hit iff the key maps to a valid slot; returns the value
copy and runs `on_access`. -/
def lookup (P : Policy σ π) (s : CacheState σ π) (k : Nat) :
    Bool × Nat × CacheState σ π :=
  match mfind k s.cache_map with
  | some i =>
    if (getE s.entries (i : Int)).valid then
      let v := (getE s.entries (i : Int)).value
      let r := P.on_access s.policy_data i s.entries
      (true, v, { s with policy_data := r.1, entries := r.2, hits := s.hits + 1 })
    else (false, 0, { s with misses := s.misses + 1 })
  | none => (false, 0, { s with misses := s.misses + 1 })

/-- The tail of `insert` after the residency check: draw a free slot
(refusing when none is available), construct the entry, add it to the
primary index and run `on_insert`. -/
def insertFresh (P : Policy σ π) (s : CacheState σ π) (k v : Nat) :
    Bool × CacheState σ π :=
  match s.free_indices with
  | [] => (false, s)
  | idx :: rest =>
    let es := create_entry P k v idx s.entries
    let cm := mset k idx s.cache_map
    let r := P.on_insert s.policy_data idx es
    let s1 := { s with
      cache_map := cm
      entries := r.2
      free_indices := rest
      policy_data := r.1
      used_entries := s.used_entries + 1 }
    (true, s1)

/-- The miss path of `insert`: evict when the cache is full (refusing
when no eligible victim exists, with any scan-time policy mutations
kept), then construct the fresh entry. -/
def insertMiss (P : Policy σ π) (s : CacheState σ π) (k v : Nat) :
    Bool × CacheState σ π :=
  if s.used_entries ≥ s.cache_size then
    match evict_entry P s with
    | (none, s1) => (false, s1)
    | (some ik, s1) => insertFresh P { s1 with cache_map := merase ik.2 s1.cache_map } k v
  else insertFresh P s k v

/-- `insert`: refuse on an existing resident key (after `on_access`,
without overwriting the value); otherwise take the miss path. -/
def insert (P : Policy σ π) (s : CacheState σ π) (k v : Nat) :
    Bool × CacheState σ π :=
  match mfind k s.cache_map with
  | some i =>
    if (getE s.entries (i : Int)).valid then
      let r := P.on_access s.policy_data i s.entries
      (false, { s with policy_data := r.1, entries := r.2 })
    else insertMiss P s k v
  | none => insertMiss P s k v

/-- `mark_dirty`: set the dirty flag of a resident valid entry. -/
def mark_dirty (s : CacheState σ π) (k : Nat) : CacheState σ π :=
  match mfind k s.cache_map with
  | some i =>
    if (getE s.entries (i : Int)).valid then
      { s with entries := setEntry s.entries i (fun e => { e with dirty := true }) }
    else s
  | none => s

/-- `mark_clean`: clear the dirty flag of a resident valid entry. -/
def mark_clean (s : CacheState σ π) (k : Nat) : CacheState σ π :=
  match mfind k s.cache_map with
  | some i =>
    if (getE s.entries (i : Int)).valid then
      { s with entries := setEntry s.entries i (fun e => { e with dirty := false }) }
    else s
  | none => s

/-- `pin`: increment the pin count of a resident valid entry. -/
def pin (s : CacheState σ π) (k : Nat) : CacheState σ π :=
  match mfind k s.cache_map with
  | some i =>
    if (getE s.entries (i : Int)).valid then
      { s with entries :=
          setEntry s.entries i (fun e => { e with pin_count := e.pin_count + 1 }) }
    else s
  | none => s

/-- `unpin`: decrement the pin count of a resident valid entry when it
is positive. -/
def unpin (s : CacheState σ π) (k : Nat) : CacheState σ π :=
  match mfind k s.cache_map with
  | some i =>
    if (getE s.entries (i : Int)).valid then
      if (getE s.entries (i : Int)).pin_count > 0 then
        { s with entries :=
            setEntry s.entries i (fun e => { e with pin_count := e.pin_count - 1 }) }
      else s
    else s
  | none => s

/-- `invalidate`: if the key maps to a valid slot, run `on_remove`,
mark the slot invalid, decrement `used_entries` and return the slot to
the free stack.  The C++ does NOT erase the key from `cache_map_`. -/
def invalidate (P : Policy σ π) (s : CacheState σ π) (k : Nat) : CacheState σ π :=
  match mfind k s.cache_map with
  | some i =>
    if (getE s.entries (i : Int)).valid then
      let r := P.on_remove s.policy_data i s.entries
      let es1 := setValidAt r.2 i false
      { s with
        policy_data := r.1
        entries := es1
        used_entries := s.used_entries - 1
        free_indices := (getE es1 (i : Int)).index :: s.free_indices }
    else s
  | none => s

/-- The eviction loop of `resize`, fuelled by the entry count: evict
while `used_entries > cache_size`, stopping when no victim exists. -/
def resizeLoop (P : Policy σ π) : Nat → CacheState σ π → CacheState σ π
  | 0, s => s
  | fuel + 1, s =>
    if s.used_entries > s.cache_size then
      match evict_entry P s with
      | (some ik, s1) => resizeLoop P fuel { s1 with cache_map := merase ik.2 s1.cache_map }
      | (none, s1) => s1
    else s

/-- `resize`: set the new capacity, then evict down to it while
eligible victims remain. -/
def resize (P : Policy σ π) (s : CacheState σ π) (n : Nat) : CacheState σ π :=
  let s1 := { s with cache_size := n }
  resizeLoop P s1.used_entries s1

/-- `clear`: drop the index, invalidate every slot, reset the policy
data and statistics, and rebuild the free stack from the CURRENT
`cache_size` (which `resize` may have changed). -/
def clear (P : Policy σ π) (s : CacheState σ π) : CacheState σ π where
  cache_map := []
  entries := s.entries.map (fun e => { e with valid := false })
  free_indices := List.range s.cache_size
  policy_data := P.dataInit
  cache_size := s.cache_size
  used_entries := 0
  hits := 0
  misses := 0
  evictions := 0

/-- The iteration of `get_dirty` over the primary index: push the pair
key when the mapped slot is valid and dirty, stopping once `n` keys are
collected (note the size test runs only after a push, so `n = 0` still
yields the first dirty key). -/
def get_dirty_go (es : Array (CacheEntry π)) (n : Nat) :
    List (Nat × Nat) → List Nat → List Nat
  | [], acc => acc.reverse
  | (k, i) :: rest, acc =>
    let e := getE es (i : Int)
    if e.valid && e.dirty then
      if (k :: acc).length ≥ n then (k :: acc).reverse
      else get_dirty_go es n rest (k :: acc)
    else get_dirty_go es n rest acc

/-- `get_dirty`: snapshot keys of the primary index whose slots are
valid and dirty, up to the limit (see `get_dirty_go` for the `n = 0`
quirk). -/
def get_dirty (s : CacheState σ π) (n : Nat) : List Nat :=
  get_dirty_go s.entries n s.cache_map []

/-- The public operations used by the tests. -/
inductive CacheOp where
  | op_lookup (k : Nat)
  | op_insert (k v : Nat)
  | op_mark_dirty (k : Nat)
  | op_mark_clean (k : Nat)
  | op_pin (k : Nat)
  | op_unpin (k : Nat)
  | op_invalidate (k : Nat)
  | op_resize (n : Nat)
  | op_clear
deriving DecidableEq

/-- Apply one public operation (discarding lookup/insert results). -/
def applyOp (P : Policy σ π) (s : CacheState σ π) : CacheOp → CacheState σ π
  | .op_lookup k => (lookup P s k).2.2
  | .op_insert k v => (insert P s k v).2
  | .op_mark_dirty k => mark_dirty s k
  | .op_mark_clean k => mark_clean s k
  | .op_pin k => pin s k
  | .op_unpin k => unpin s k
  | .op_invalidate k => invalidate P s k
  | .op_resize n => resize P s n
  | .op_clear => clear P s

/-- Run a sequence of public operations. -/
def runOps (P : Policy σ π) (s : CacheState σ π) : List CacheOp → CacheState σ π
  | [] => s
  | op :: rest => runOps P (applyOp P s op) rest

/-- The number of valid (resident) entries in the slab. -/
def countValid (es : Array (CacheEntry π)) : Nat :=
  ((List.range es.size).filter (fun j : Nat => (getE es (j : Int)).valid)).length

end TemplateCacheManager

/-! ### Base-field preservation by policy code

Policy code only ever writes the payload fields (list links, bits,
counts); the base fields of `CacheEntry` (key, value, dirty, valid,
index, pin count) are written by the manager alone.  `baseEq a b` says
the slab `b` agrees with `a` on size and on every base field. -/

section BaseEq

variable {σ π : Type} [Inhabited π]

/-- Slabs agreeing on size and on all base fields of every slot. -/
def baseEq (a b : Array (CacheEntry π)) : Prop :=
  b.size = a.size ∧ ∀ j : Int,
    (getE b j).key = (getE a j).key ∧
    (getE b j).value = (getE a j).value ∧
    (getE b j).dirty = (getE a j).dirty ∧
    (getE b j).valid = (getE a j).valid ∧
    (getE b j).index = (getE a j).index ∧
    (getE b j).pin_count = (getE a j).pin_count

theorem baseEq_refl (a : Array (CacheEntry π)) : baseEq a a :=
  ⟨rfl, fun _ => ⟨rfl, rfl, rfl, rfl, rfl, rfl⟩⟩

theorem baseEq_trans {a b c : Array (CacheEntry π)} (h1 : baseEq a b)
    (h2 : baseEq b c) : baseEq a c := by
  refine ⟨h2.1.trans h1.1, fun j => ?_⟩
  obtain ⟨k1, v1, d1, va1, i1, p1⟩ := h1.2 j
  obtain ⟨k2, v2, d2, va2, i2, p2⟩ := h2.2 j
  exact ⟨k2.trans k1, v2.trans v1, d2.trans d1, va2.trans va1, i2.trans i1, p2.trans p1⟩

theorem getE_set (es : Array (CacheEntry π)) (n : Nat) (h : n < es.size)
    (e : CacheEntry π) (j : Int) :
    getE (es.set ⟨n, h⟩ e) j = if j.toNat = n then e else getE es j := by
  unfold getE Array.getD
  rcases Decidable.em (j.toNat = n) with he | he
  · subst he
    simp [h]
  · split
    · next hlt =>
      rw [Array.size_set] at hlt
      simp only [hlt, dif_pos, Array.get_eq_getElem]
      rw [Array.getElem_set]
      exact if_neg (fun hn => he hn.symm)
    · next hlt =>
      rw [Array.size_set] at hlt
      simp [hlt, he]

theorem baseEq_updPolAt (es : Array (CacheEntry π)) (i : Int) (f : π → π) :
    baseEq es (updPolAt es i f) := by
  unfold updPolAt
  split
  · next h =>
    refine ⟨Array.size_set .., fun j => ?_⟩
    rw [getE_set]
    split
    · next hj =>
      have : getE es j = es.get ⟨i.toNat, h⟩ := by
        unfold getE Array.getD
        simp [hj, h, Array.get_eq_getElem]
      rw [this]
      exact ⟨rfl, rfl, rfl, rfl, rfl, rfl⟩
    · exact ⟨rfl, rfl, rfl, rfl, rfl, rfl⟩
  · exact baseEq_refl es

/-- `baseEq` chaining step for a conditional payload write. -/
theorem baseEq_updPolAt_of {a b : Array (CacheEntry π)} (h : baseEq a b)
    (i : Int) (f : π → π) : baseEq a (updPolAt b i f) :=
  baseEq_trans h (baseEq_updPolAt b i f)

theorem baseEq_ite {a : Array (CacheEntry π)} {c : Prop} [Decidable c]
    {b1 b2 : Array (CacheEntry π)} (h1 : c → baseEq a b1) (h2 : ¬c → baseEq a b2) :
    baseEq a (if c then b1 else b2) := by
  split
  · exact h1 (by assumption)
  · exact h2 (by assumption)

/-- The policy sanity facts the manager proofs rely on: every policy
hook preserves the base fields of every slot, and the victim scan only
nominates entries satisfying the eligibility predicate (evaluated on
the slab the scan returns). -/
structure Sane (P : Policy σ π) : Prop where
  access_base : ∀ m i es, baseEq es (P.on_access m i es).2
  insert_base : ∀ m i es, baseEq es (P.on_insert m i es).2
  remove_base : ∀ m i es, baseEq es (P.on_remove m i es).2
  cand_base : ∀ m es can, baseEq es (P.get_eviction_candidate m es can).2.2
  cand_can : ∀ m es can j, (P.get_eviction_candidate m es can).1 = some j →
    can (getE (P.get_eviction_candidate m es can).2.2 (j : Int)) = true

end BaseEq

theorem getE_coe_toNat {π : Type} [Inhabited π] (es : Array (CacheEntry π)) (i : Int) :
    getE es ((i.toNat : Nat) : Int) = getE es i := by
  have h : ((i.toNat : Nat) : Int).toNat = i.toNat := by omega
  unfold getE
  rw [h]

section SaneInstances

theorem lru_scanPrev_can (es : Array (CacheEntry LRU.Payload))
    (can : CacheEntry LRU.Payload → Bool) :
    ∀ fuel idx j, LRU.scanPrev es can fuel idx = some j →
      can (getE es (j : Int)) = true := by
  intro fuel
  induction fuel with
  | zero => intro idx j h; exact absurd h (by simp [LRU.scanPrev])
  | succ n ih =>
    intro idx j h
    unfold LRU.scanPrev at h
    split at h
    · exact absurd h (by simp)
    · dsimp only at h
      split at h
      · next hc =>
        cases h
        rw [getE_coe_toNat]
        exact hc
      · exact ih _ _ h

theorem lruSane : Sane lruPolicy := by
  constructor
  · intro m i es
    show baseEq es (LRU.on_access m i es).2
    unfold LRU.on_access
    dsimp only
    split
    · exact baseEq_refl es
    · repeat
        first
        | exact baseEq_refl _
        | apply baseEq_updPolAt_of
        | (apply baseEq_ite <;> intro _)
  · intro m i es
    show baseEq es (LRU.on_insert m i es).2
    unfold LRU.on_insert
    dsimp only
    repeat
      first
      | exact baseEq_refl _
      | apply baseEq_updPolAt_of
      | (apply baseEq_ite <;> intro _)
  · intro m i es
    show baseEq es (LRU.on_remove m i es).2
    unfold LRU.on_remove
    dsimp only
    repeat
      first
      | exact baseEq_refl _
      | apply baseEq_updPolAt_of
      | (apply baseEq_ite <;> intro _)
  · intro m es can
    exact baseEq_refl es
  · intro m es can j h
    exact lru_scanPrev_can es can _ _ j h

theorem fifo_scanNext_can (es : Array (CacheEntry FIFO.Payload))
    (can : CacheEntry FIFO.Payload → Bool) :
    ∀ fuel idx j, FIFO.scanNext es can fuel idx = some j →
      can (getE es (j : Int)) = true := by
  intro fuel
  induction fuel with
  | zero => intro idx j h; exact absurd h (by simp [FIFO.scanNext])
  | succ n ih =>
    intro idx j h
    unfold FIFO.scanNext at h
    split at h
    · exact absurd h (by simp)
    · dsimp only at h
      split at h
      · next hc =>
        cases h
        rw [getE_coe_toNat]
        exact hc
      · exact ih _ _ h

theorem fifoSane : Sane fifoPolicy := by
  constructor
  · intro m i es
    exact baseEq_refl es
  · intro m i es
    show baseEq es (FIFO.on_insert m i es).2
    unfold FIFO.on_insert
    dsimp only
    repeat
      first
      | exact baseEq_refl _
      | apply baseEq_updPolAt_of
      | (apply baseEq_ite <;> intro _)
  · intro m i es
    show baseEq es (FIFO.on_remove m i es).2
    unfold FIFO.on_remove
    dsimp only
    repeat
      first
      | exact baseEq_refl _
      | apply baseEq_updPolAt_of
      | (apply baseEq_ite <;> intro _)
  · intro m es can
    exact baseEq_refl es
  · intro m es can j h
    exact fifo_scanNext_can es can _ _ j h

theorem lfu_scanBucket_can (es : Array (CacheEntry LFU.Payload))
    (can : CacheEntry LFU.Payload → Bool) :
    ∀ fuel idx j, LFU.scanBucket es can fuel idx = some j →
      can (getE es (j : Int)) = true := by
  intro fuel
  induction fuel with
  | zero => intro idx j h; exact absurd h (by simp [LFU.scanBucket])
  | succ n ih =>
    intro idx j h
    unfold LFU.scanBucket at h
    split at h
    · exact absurd h (by simp)
    · dsimp only at h
      split at h
      · next hc =>
        cases h
        rw [getE_coe_toNat]
        exact hc
      · exact ih _ _ h

set_option maxHeartbeats 1600000 in
theorem lfuSane : Sane lfuPolicy := by
  constructor
  · intro m i es
    show baseEq es (LFU.on_access m i es).2
    unfold LFU.on_access
    dsimp only
    repeat
      first
      | apply baseEq_updPolAt_of
      | (apply baseEq_ite <;> intro _)
      | exact baseEq_refl _
  · intro m i es
    show baseEq es (LFU.on_insert m i es).2
    unfold LFU.on_insert
    dsimp only
    repeat
      first
      | apply baseEq_updPolAt_of
      | (apply baseEq_ite <;> intro _)
      | exact baseEq_refl _
  · intro m i es
    show baseEq es (LFU.on_remove m i es).2
    unfold LFU.on_remove
    dsimp only
    repeat
      first
      | apply baseEq_updPolAt_of
      | (apply baseEq_ite <;> intro _)
      | exact baseEq_refl _
  · intro m es can
    show baseEq es (LFU.get_eviction_candidate m es can).2.2
    unfold LFU.get_eviction_candidate
    dsimp only
    split
    · exact baseEq_refl es
    · exact baseEq_refl es
  · intro m es can j
    show (LFU.get_eviction_candidate m es can).1 = some j →
      can (getE (LFU.get_eviction_candidate m es can).2.2 (j : Int)) = true
    unfold LFU.get_eviction_candidate
    dsimp only
    split
    · intro h; exact absurd h (by simp)
    · intro h
      exact lfu_scanBucket_can es can _ _ j h

theorem clock_scanLoop_base (can : CacheEntry CLOCK.Payload → Bool) (start : Int) :
    ∀ fuel es hand pass r, CLOCK.scanLoop can start fuel es hand pass = r →
      baseEq es r.2.2 := by
  intro fuel
  induction fuel with
  | zero =>
    intro es hand pass r hr
    unfold CLOCK.scanLoop at hr
    exact hr ▸ baseEq_refl es
  | succ n ih =>
    intro es hand pass r hr
    unfold CLOCK.scanLoop at hr
    dsimp only at hr
    split at hr
    · exact hr ▸ baseEq_refl es
    · repeat' split at hr
      all_goals
        first
        | exact hr ▸ baseEq_refl es
        | exact hr ▸ baseEq_updPolAt es hand _
        | exact baseEq_trans (baseEq_updPolAt es hand _) (ih _ _ _ r hr)
        | exact ih _ _ _ r hr

theorem clock_scanLoop_can (can : CacheEntry CLOCK.Payload → Bool) (start : Int) :
    ∀ fuel es hand pass j r, CLOCK.scanLoop can start fuel es hand pass = r →
      r.1 = some j → can (getE r.2.2 (j : Int)) = true := by
  intro fuel
  induction fuel with
  | zero =>
    intro es hand pass j r hr hj
    unfold CLOCK.scanLoop at hr
    rw [← hr] at hj
    exact absurd hj (by simp)
  | succ n ih =>
    intro es hand pass j r hr hj
    unfold CLOCK.scanLoop at hr
    dsimp only at hr
    split at hr
    · next hc =>
      rw [← hr] at hj ⊢
      have hjh : j = Int.toNat hand := by
        simpa using hj.symm
      subst hjh
      rw [getE_coe_toNat]
      exact hc.1
    · repeat' split at hr
      all_goals
        first
        | (rw [← hr] at hj; exact absurd hj (by simp))
        | exact ih _ _ _ j r hr hj

theorem clockSane : Sane clockPolicy := by
  constructor
  · intro m i es
    exact baseEq_updPolAt es (i : Int) _
  · intro m i es
    show baseEq es (CLOCK.on_insert m i es).2
    unfold CLOCK.on_insert
    dsimp only
    split
    all_goals
      repeat
        first
        | exact baseEq_refl _
        | apply baseEq_updPolAt_of
        | (apply baseEq_ite <;> intro _)
  · intro m i es
    show baseEq es (CLOCK.on_remove m i es).2
    unfold CLOCK.on_remove
    dsimp only
    split
    all_goals
      repeat
        first
        | exact baseEq_refl _
        | apply baseEq_updPolAt_of
        | (apply baseEq_ite <;> intro _)
  · intro m es can
    show baseEq es (CLOCK.get_eviction_candidate m es can).2.2
    unfold CLOCK.get_eviction_candidate
    dsimp only
    split
    · exact baseEq_refl es
    · exact clock_scanLoop_base can m.hand _ es m.hand 0 _ rfl
  · intro m es can j h
    revert h
    show (CLOCK.get_eviction_candidate m es can).1 = some j →
      can (getE (CLOCK.get_eviction_candidate m es can).2.2 (j : Int)) = true
    unfold CLOCK.get_eviction_candidate
    dsimp only
    split
    · intro h; exact absurd h (by simp)
    · intro h
      exact clock_scanLoop_can can m.hand _ es m.hand 0 j _ rfl h

theorem sieve_scanLoop_base (can : CacheEntry SIEVE.Payload → Bool) (start : Int) :
    ∀ fuel es hand pass r, SIEVE.scanLoop can start fuel es hand pass = r →
      baseEq es r.2.2 := by
  intro fuel
  induction fuel with
  | zero =>
    intro es hand pass r hr
    unfold SIEVE.scanLoop at hr
    exact hr ▸ baseEq_refl es
  | succ n ih =>
    intro es hand pass r hr
    unfold SIEVE.scanLoop at hr
    dsimp only at hr
    split at hr
    · exact hr ▸ baseEq_refl es
    · repeat' split at hr
      all_goals
        first
        | exact hr ▸ baseEq_refl es
        | exact hr ▸ baseEq_updPolAt es hand _
        | exact baseEq_trans (baseEq_updPolAt es hand _) (ih _ _ _ r hr)
        | exact ih _ _ _ r hr

theorem sieve_scanLoop_can (can : CacheEntry SIEVE.Payload → Bool) (start : Int) :
    ∀ fuel es hand pass j r, SIEVE.scanLoop can start fuel es hand pass = r →
      r.1 = some j → can (getE r.2.2 (j : Int)) = true := by
  intro fuel
  induction fuel with
  | zero =>
    intro es hand pass j r hr hj
    unfold SIEVE.scanLoop at hr
    rw [← hr] at hj
    exact absurd hj (by simp)
  | succ n ih =>
    intro es hand pass j r hr hj
    unfold SIEVE.scanLoop at hr
    dsimp only at hr
    split at hr
    · next hc =>
      rw [← hr] at hj ⊢
      have hjh : j = Int.toNat hand := by
        simpa using hj.symm
      subst hjh
      rw [getE_coe_toNat]
      exact hc.1
    · repeat' split at hr
      all_goals
        first
        | (rw [← hr] at hj; exact absurd hj (by simp))
        | exact ih _ _ _ j r hr hj

theorem sieveSane : Sane sievePolicy := by
  constructor
  · intro m i es
    exact baseEq_updPolAt es (i : Int) _
  · intro m i es
    show baseEq es (SIEVE.on_insert m i es).2
    unfold SIEVE.on_insert
    dsimp only
    split
    all_goals
      repeat
        first
        | exact baseEq_refl _
        | apply baseEq_updPolAt_of
        | (apply baseEq_ite <;> intro _)
  · intro m i es
    show baseEq es (SIEVE.on_remove m i es).2
    unfold SIEVE.on_remove
    dsimp only
    split
    all_goals
      repeat
        first
        | exact baseEq_refl _
        | apply baseEq_updPolAt_of
        | (apply baseEq_ite <;> intro _)
  · intro m es can
    show baseEq es (SIEVE.get_eviction_candidate m es can).2.2
    unfold SIEVE.get_eviction_candidate
    dsimp only
    split
    · exact baseEq_refl es
    · exact sieve_scanLoop_base can m.hand _ es m.hand 0 _ rfl
  · intro m es can j h
    revert h
    show (SIEVE.get_eviction_candidate m es can).1 = some j →
      can (getE (SIEVE.get_eviction_candidate m es can).2.2 (j : Int)) = true
    unfold SIEVE.get_eviction_candidate
    dsimp only
    split
    · intro h; exact absurd h (by simp)
    · intro h
      exact sieve_scanLoop_can can m.hand _ es m.hand 0 j _ rfl h

theorem arc_add_base (head tail : Int) (i : Nat) (es : Array (CacheEntry ARC.Payload)) :
    baseEq es (ARC.add_to_list_head head tail i es).2.2 := by
  unfold ARC.add_to_list_head
  dsimp only
  repeat
    first
    | exact baseEq_refl _
    | apply baseEq_updPolAt_of
    | (apply baseEq_ite <;> intro _)

theorem arc_remove_base (head tail : Int) (i : Nat) (es : Array (CacheEntry ARC.Payload)) :
    baseEq es (ARC.remove_from_list head tail i es).2.2 := by
  unfold ARC.remove_from_list
  dsimp only
  repeat
    first
    | exact baseEq_refl _
    | apply baseEq_updPolAt_of
    | (apply baseEq_ite <;> intro _)

theorem arc_find_can (es : Array (CacheEntry ARC.Payload))
    (can : CacheEntry ARC.Payload → Bool) :
    ∀ fuel idx j, ARC.find_evictable_from_tail es can fuel idx = some j →
      can (getE es (j : Int)) = true := by
  intro fuel
  induction fuel with
  | zero => intro idx j h; exact absurd h (by simp [ARC.find_evictable_from_tail])
  | succ n ih =>
    intro idx j h
    unfold ARC.find_evictable_from_tail at h
    split at h
    · exact absurd h (by simp)
    · dsimp only at h
      split at h
      · next hc =>
        cases h
        rw [getE_coe_toNat]
        exact hc
      · exact ih _ _ h

theorem arcSane : Sane arcPolicy := by
  constructor
  · intro m i es
    show baseEq es (ARC.on_access m i es).2
    unfold ARC.on_access
    dsimp only
    split
    · refine baseEq_updPolAt_of (baseEq_trans (arc_remove_base m.t1_head m.t1_tail i es) ?_) _ _
      exact arc_add_base _ _ _ _
    · refine baseEq_trans (arc_remove_base m.t2_head m.t2_tail i es) ?_
      apply arc_add_base
      exact (ARC.remove_from_list m.t2_head m.t2_tail i es).2.1
  · intro m i es
    show baseEq es (ARC.on_insert m i es).2
    unfold ARC.on_insert
    dsimp only
    split
    · exact baseEq_updPolAt_of (arc_add_base _ _ _ _) _ _
    · split
      · exact baseEq_updPolAt_of (arc_add_base _ _ _ _) _ _
      · exact baseEq_updPolAt_of (arc_add_base _ _ _ _) _ _
  · intro m i es
    show baseEq es (ARC.on_remove m i es).2
    unfold ARC.on_remove
    dsimp only
    split
    · exact arc_remove_base m.t1_head m.t1_tail i es
    · exact arc_remove_base m.t2_head m.t2_tail i es
  · intro m es can
    exact baseEq_refl es
  · intro m es can j h
    revert h
    show (ARC.get_eviction_candidate m es can).1 = some j →
      can (getE (ARC.get_eviction_candidate m es can).2.2 (j : Int)) = true
    unfold ARC.get_eviction_candidate
    dsimp only
    split
    · intro h; exact arc_find_can es can _ _ j h
    · split
      · intro h; exact arc_find_can es can _ _ j h
      · intro h; exact arc_find_can es can _ _ j h

end SaneInstances

/-! ### Manager-level invariants

`Wf` is the structural invariant of every reachable cache state: free
slots hold invalid entries, the free stack has no duplicates, and each
valid entry records its own slot in its `index` field. -/

section ManagerLemmas

variable {σ π : Type} [Inhabited π]

theorem size_setEntry (es : Array (CacheEntry π)) (i : Nat)
    (f : CacheEntry π → CacheEntry π) : (setEntry es i f).size = es.size := by
  unfold setEntry
  split <;> simp

theorem getE_setEntry (es : Array (CacheEntry π)) (i : Nat)
    (f : CacheEntry π → CacheEntry π) (j : Int) :
    getE (setEntry es i f) j =
      if j.toNat = i ∧ i < es.size then f (getE es (i : Int)) else getE es j := by
  unfold setEntry
  split
  · next h =>
    rw [getE_set]
    rcases Decidable.em (j.toNat = i) with hj | hj
    · simp only [hj, h, and_true, if_true, if_pos rfl]
      have : getE es (i : Int) = es.get ⟨i, h⟩ := by
        unfold getE Array.getD
        simp [h, Array.get_eq_getElem]
      rw [this]
    · simp [hj]
  · next h =>
    simp [h]

theorem getE_oob (es : Array (CacheEntry π)) (j : Int) (h : ¬ j.toNat < es.size) :
    getE es j = default := by
  unfold getE Array.getD
  simp [h]

theorem valid_lt_size {es : Array (CacheEntry π)} {j : Int}
    (h : (getE es j).valid = true) : j.toNat < es.size := by
  by_contra hn
  rw [getE_oob es j hn] at h
  exact absurd h (by simp [default, instInhabitedCacheEntry])

theorem baseEq_key {a b : Array (CacheEntry π)} (hb : baseEq a b) (j : Int) :
    (getE b j).key = (getE a j).key := (hb.2 j).1

theorem baseEq_value {a b : Array (CacheEntry π)} (hb : baseEq a b) (j : Int) :
    (getE b j).value = (getE a j).value := (hb.2 j).2.1

theorem baseEq_dirty {a b : Array (CacheEntry π)} (hb : baseEq a b) (j : Int) :
    (getE b j).dirty = (getE a j).dirty := (hb.2 j).2.2.1

theorem baseEq_valid {a b : Array (CacheEntry π)} (hb : baseEq a b) (j : Int) :
    (getE b j).valid = (getE a j).valid := (hb.2 j).2.2.2.1

theorem baseEq_index {a b : Array (CacheEntry π)} (hb : baseEq a b) (j : Int) :
    (getE b j).index = (getE a j).index := (hb.2 j).2.2.2.2.1

theorem baseEq_pin {a b : Array (CacheEntry π)} (hb : baseEq a b) (j : Int) :
    (getE b j).pin_count = (getE a j).pin_count := (hb.2 j).2.2.2.2.2

theorem getE_setValidAt (es : Array (CacheEntry π)) (i : Nat) (v : Bool) (j : Int) :
    getE (setValidAt es i v) j =
      if j.toNat = i ∧ i < es.size then { getE es (i : Int) with valid := v }
      else getE es j := by
  unfold setValidAt
  rw [getE_setEntry]

theorem size_setValidAt (es : Array (CacheEntry π)) (i : Nat) (v : Bool) :
    (setValidAt es i v).size = es.size := size_setEntry es i _

theorem baseEq_setValidAt_congr {a b : Array (CacheEntry π)} (hb : baseEq a b)
    (i : Nat) (v : Bool) : baseEq (setValidAt a i v) (setValidAt b i v) := by
  refine ⟨by rw [size_setValidAt, size_setValidAt, hb.1], fun j => ?_⟩
  rw [getE_setValidAt, getE_setValidAt, hb.1]
  split
  · exact ⟨baseEq_key hb _, baseEq_value hb _, baseEq_dirty hb _, rfl,
      baseEq_index hb _, baseEq_pin hb _⟩
  · exact (hb.2 j)

namespace TemplateCacheManager

theorem can_evict_true_iff (e : CacheEntry π) :
    can_evict e = true ↔ e.valid = true ∧ e.pin_count = 0 ∧ e.dirty = false := by
  unfold can_evict
  rcases e with ⟨k, v, d, va, ix, p, pl⟩
  cases d <;> cases va <;> simp

/-- The fresh entry written by `create_entry`. -/
def freshEntry (P : Policy σ π) (k v idx : Nat) : CacheEntry π :=
  { key := k, value := v, dirty := false, valid := true, index := idx,
    pin_count := 0, pol := P.payloadFresh }

theorem create_entry_eq_setEntry (P : Policy σ π) (k v idx : Nat)
    (es : Array (CacheEntry π)) :
    create_entry P k v idx es = setEntry es idx (fun _ => freshEntry P k v idx) := by
  unfold create_entry setEntry freshEntry
  rfl

theorem size_create_entry (P : Policy σ π) (k v idx : Nat)
    (es : Array (CacheEntry π)) :
    (create_entry P k v idx es).size = es.size := by
  rw [create_entry_eq_setEntry]
  exact size_setEntry es idx _

theorem getE_create_entry (P : Policy σ π) (k v idx : Nat)
    (es : Array (CacheEntry π)) (j : Int) :
    getE (create_entry P k v idx es) j =
      if j.toNat = idx ∧ idx < es.size then freshEntry P k v idx else getE es j := by
  rw [create_entry_eq_setEntry, getE_setEntry]

/-- Structural invariant on a slab and free stack: free slots are
invalid, the free stack is duplicate-free, and valid entries record
their own slot index. -/
def WfCore (entries : Array (CacheEntry π)) (free : List Nat) : Prop :=
  (∀ f ∈ free, (getE entries (f : Int)).valid = false) ∧
  free.Nodup ∧
  (∀ j : Nat, (getE entries (j : Int)).valid = true →
    (getE entries (j : Int)).index = j)

/-- Structural invariant of a cache state. -/
def Wf (s : CacheState σ π) : Prop := WfCore s.entries s.free_indices

theorem getE_mkArray (c : Nat) (j : Int) :
    getE (Array.mkArray c (default : CacheEntry π)) j = default := by
  unfold getE Array.getD
  split
  · exact Array.getElem_mkArray ..
  · rfl

theorem wf_initCache (P : Policy σ π) (c : Nat) : Wf (initCache P c) := by
  refine ⟨fun f _ => ?_, ?_, fun j h => ?_⟩
  · show (getE (Array.mkArray c (default : CacheEntry π)) (f : Int)).valid = false
    rw [getE_mkArray]
    rfl
  · exact List.nodup_range c
  · exfalso
    have h' : (getE (Array.mkArray c (default : CacheEntry π)) ((j : Nat) : Int)).valid
        = true := h
    rw [getE_mkArray] at h'
    exact absurd h' (by simp [default, instInhabitedCacheEntry])

theorem evict_entry_none_spec (P : Policy σ π) (hS : Sane P) (s : CacheState σ π)
    {s1 : CacheState σ π} (h : evict_entry P s = (none, s1)) :
    baseEq s.entries s1.entries ∧ s1.cache_map = s.cache_map ∧
    s1.free_indices = s.free_indices ∧ s1.cache_size = s.cache_size ∧
    s1.used_entries = s.used_entries := by
  unfold evict_entry at h
  split at h
  · next heq =>
    have h2 := Prod.mk.injEq .. ▸ h
    simp only [Prod.mk.injEq] at h
    obtain ⟨-, h1⟩ := h
    subst h1
    have hb := hS.cand_base s.policy_data s.entries can_evict
    rw [heq] at hb
    exact ⟨hb, rfl, rfl, rfl, rfl⟩
  · simp at h

theorem evict_entry_some_spec (P : Policy σ π) (hS : Sane P) (s : CacheState σ π)
    (hW : Wf s) {i k : Nat} {s1 : CacheState σ π}
    (h : evict_entry P s = (some (i, k), s1)) :
    (getE s.entries (i : Int)).valid = true ∧
    (getE s.entries (i : Int)).pin_count = 0 ∧
    (getE s.entries (i : Int)).dirty = false ∧
    k = (getE s.entries (i : Int)).key ∧
    baseEq (setValidAt s.entries i false) s1.entries ∧
    s1.free_indices = i :: s.free_indices ∧
    s1.cache_map = s.cache_map ∧
    s1.cache_size = s.cache_size ∧
    s1.used_entries = s.used_entries - 1 ∧
    s1.evictions = s.evictions + 1 := by
  unfold evict_entry at h
  split at h
  · simp at h
  · next i' pd' es' heq =>
    simp only [Prod.mk.injEq, Option.some.injEq] at h
    obtain ⟨⟨hi, hk⟩, h1⟩ := h
    subst hi
    have hcan : can_evict (getE es' (i' : Int)) = true := by
      have := hS.cand_can s.policy_data s.entries can_evict i'
      rw [heq] at this
      exact this rfl
    have hb : baseEq s.entries es' := by
      have := hS.cand_base s.policy_data s.entries can_evict
      rw [heq] at this
      exact this
    rw [can_evict_true_iff] at hcan
    obtain ⟨hv', hp', hd'⟩ := hcan
    have hv : (getE s.entries (i' : Int)).valid = true := by
      rw [← baseEq_valid hb]; exact hv'
    have hp : (getE s.entries (i' : Int)).pin_count = 0 := by
      rw [← baseEq_pin hb]; exact hp'
    have hd : (getE s.entries (i' : Int)).dirty = false := by
      rw [← baseEq_dirty hb]; exact hd'
    have hidx : (getE es' (i' : Int)).index = i' := by
      rw [baseEq_index hb]
      have hvt : (getE s.entries ((i' : Nat) : Int)).valid = true := hv
      exact hW.2.2 i' hvt
    have hkey : k = (getE s.entries (i' : Int)).key := by
      rw [← hk, baseEq_key hb]
    have hbase : baseEq (setValidAt s.entries i' false) s1.entries := by
      rw [← h1]
      exact baseEq_trans (baseEq_setValidAt_congr hb i' false)
        (hS.remove_base pd' i' (setValidAt es' i' false))
    refine ⟨hv, hp, hd, hkey, hbase, ?_, ?_, ?_, ?_, ?_⟩
    · rw [← h1]
      simp only
      rw [hidx]
    · rw [← h1]
    · rw [← h1]
    · rw [← h1]
    · rw [← h1]

theorem wfcore_of_baseEq {a b : Array (CacheEntry π)} {free : List Nat}
    (hb : baseEq a b) (hW : WfCore a free) : WfCore b free := by
  refine ⟨fun f hf => ?_, hW.2.1, fun j hv => ?_⟩
  · rw [baseEq_valid hb]
    exact hW.1 f hf
  · rw [baseEq_index hb]
    exact hW.2.2 j (by rw [← baseEq_valid hb]; exact hv)

/-- After invalidating a valid slot `i` (by eviction or `invalidate`),
pushing `i` onto the free stack keeps the structural invariant. -/
theorem wfcore_invalidate_slot {a : Array (CacheEntry π)} {free : List Nat}
    (hW : WfCore a free) (i : Nat) (hv : (getE a (i : Int)).valid = true) :
    WfCore (setValidAt a i false) (i :: free) := by
  have hisz : i < a.size := by
    have := valid_lt_size hv
    rwa [Int.toNat_natCast] at this
  have hnotfree : i ∉ free := fun hmem => by
    have := hW.1 i hmem
    rw [this] at hv
    exact Bool.false_ne_true hv
  refine ⟨fun f hf => ?_, List.nodup_cons.mpr ⟨hnotfree, hW.2.1⟩, fun j hvj => ?_⟩
  · rw [getE_setValidAt]
    rcases List.mem_cons.mp hf with hfi | hfm
    · subst hfi
      simp [Int.toNat_natCast, hisz]
    · split
      · rfl
      · exact hW.1 f hfm
  · rw [getE_setValidAt] at hvj ⊢
    split at hvj
    · exact absurd hvj (by simp)
    · next hcond =>
      rw [if_neg hcond]
      exact hW.2.2 j hvj

/-- Writing a fresh valid entry into a free slot drawn from the stack
keeps the structural invariant. -/
theorem wfcore_create {a : Array (CacheEntry π)} {idx : Nat} {rest : List Nat}
    (hW : WfCore a (idx :: rest)) (P : Policy σ π) (k v : Nat) :
    WfCore (create_entry P k v idx a) rest := by
  have hnodup := List.nodup_cons.mp hW.2.1
  refine ⟨fun f hf => ?_, hnodup.2, fun j hvj => ?_⟩
  · rw [getE_create_entry]
    split
    · next hcond =>
      exfalso
      have : f = idx := by
        have := hcond.1
        rwa [Int.toNat_natCast] at this
      exact hnodup.1 (this ▸ hf)
    · exact hW.1 f (List.mem_cons_of_mem _ hf)
  · rw [getE_create_entry] at hvj ⊢
    split at hvj
    · next hcond =>
      rw [if_pos hcond]
      show idx = j
      have hj := hcond.1
      rw [Int.toNat_natCast] at hj
      exact hj.symm
    · next hcond =>
      rw [if_neg hcond]
      exact hW.2.2 j hvj

theorem wf_insertFresh (P : Policy σ π) (hS : Sane P) (s : CacheState σ π)
    (hW : Wf s) (k v : Nat) : Wf (insertFresh P s k v).2 := by
  unfold insertFresh
  split
  · exact hW
  · next idx rest hfree =>
    show WfCore _ _
    have hW1 : WfCore s.entries (idx :: rest) := hfree ▸ hW
    exact wfcore_of_baseEq (hS.insert_base _ idx _) (wfcore_create hW1 P k v)

theorem wf_evict_some (P : Policy σ π) (hS : Sane P) (s : CacheState σ π)
    (hW : Wf s) {i k : Nat} {s1 : CacheState σ π}
    (h : evict_entry P s = (some (i, k), s1)) : Wf s1 := by
  obtain ⟨hv, -, -, -, hbase, hfree, -, -, -, -⟩ := evict_entry_some_spec P hS s hW h
  show WfCore s1.entries s1.free_indices
  rw [hfree]
  exact wfcore_of_baseEq hbase (wfcore_invalidate_slot hW i hv)

theorem wf_evict_none (P : Policy σ π) (hS : Sane P) (s : CacheState σ π)
    (hW : Wf s) {s1 : CacheState σ π}
    (h : evict_entry P s = (none, s1)) : Wf s1 := by
  obtain ⟨hbase, -, hfree, -, -⟩ := evict_entry_none_spec P hS s h
  show WfCore s1.entries s1.free_indices
  rw [hfree]
  exact wfcore_of_baseEq hbase hW

theorem wf_insert (P : Policy σ π) (hS : Sane P) (s : CacheState σ π)
    (hW : Wf s) (k v : Nat) : Wf (insert P s k v).2 := by
  unfold insert
  split
  · split
    · exact wfcore_of_baseEq (hS.access_base _ _ _) hW
    · unfold insertMiss
      split
      · rcases hevict : evict_entry P s with ⟨cand, s1⟩
        rcases cand with - | ⟨i2, k2⟩
        · exact wf_evict_none P hS s hW hevict
        · have hW1 : Wf s1 := wf_evict_some P hS s hW hevict
          exact wf_insertFresh P hS
            { s1 with cache_map := merase k2 s1.cache_map } hW1 k v
      · exact wf_insertFresh P hS s hW k v
  · unfold insertMiss
    split
    · rcases hevict : evict_entry P s with ⟨cand, s1⟩
      rcases cand with - | ⟨i2, k2⟩
      · exact wf_evict_none P hS s hW hevict
      · have hW1 : Wf s1 := wf_evict_some P hS s hW hevict
        exact wf_insertFresh P hS
          { s1 with cache_map := merase k2 s1.cache_map } hW1 k v
    · exact wf_insertFresh P hS s hW k v

theorem wf_lookup (P : Policy σ π) (hS : Sane P) (s : CacheState σ π)
    (hW : Wf s) (k : Nat) : Wf (lookup P s k).2.2 := by
  unfold lookup
  split
  · split
    · exact wfcore_of_baseEq (hS.access_base _ _ _) hW
    · exact hW
  · exact hW

/-- A manager write that changes neither `valid` nor `index` keeps the
structural invariant. -/
theorem wfcore_setEntry_flag {a : Array (CacheEntry π)} {free : List Nat}
    (hW : WfCore a free) (i : Nat) (f : CacheEntry π → CacheEntry π)
    (hfv : ∀ e, (f e).valid = e.valid) (hfi : ∀ e, (f e).index = e.index) :
    WfCore (setEntry a i f) free := by
  refine ⟨fun g hg => ?_, hW.2.1, fun j hvj => ?_⟩
  · rw [getE_setEntry]
    split
    · next hcond =>
      rw [hfv]
      have hgi : g = i := by
        have := hcond.1
        rwa [Int.toNat_natCast] at this
      rw [← hgi]
      exact hW.1 g hg
    · exact hW.1 g hg
  · rw [getE_setEntry] at hvj ⊢
    split at hvj
    · next hcond =>
      rw [if_pos hcond, hfi]
      rw [hfv] at hvj
      have hji : j = i := by
        have := hcond.1
        rwa [Int.toNat_natCast] at this
      have hidx := hW.2.2 j (by rw [hji]; exact hvj)
      rw [hji] at hidx ⊢
      exact hidx
    · next hcond =>
      rw [if_neg hcond]
      exact hW.2.2 j hvj

theorem wf_mark_dirty (s : CacheState σ π) (hW : Wf s) (k : Nat) :
    Wf (mark_dirty s k) := by
  unfold mark_dirty
  split
  · split
    · exact wfcore_setEntry_flag hW _ _ (fun e => rfl) (fun e => rfl)
    · exact hW
  · exact hW

theorem wf_mark_clean (s : CacheState σ π) (hW : Wf s) (k : Nat) :
    Wf (mark_clean s k) := by
  unfold mark_clean
  split
  · split
    · exact wfcore_setEntry_flag hW _ _ (fun e => rfl) (fun e => rfl)
    · exact hW
  · exact hW

theorem wf_pin (s : CacheState σ π) (hW : Wf s) (k : Nat) : Wf (pin s k) := by
  unfold pin
  split
  · split
    · exact wfcore_setEntry_flag hW _ _ (fun e => rfl) (fun e => rfl)
    · exact hW
  · exact hW

theorem wf_unpin (s : CacheState σ π) (hW : Wf s) (k : Nat) : Wf (unpin s k) := by
  unfold unpin
  split
  · split
    · split
      · exact wfcore_setEntry_flag hW _ _ (fun e => rfl) (fun e => rfl)
      · exact hW
    · exact hW
  · exact hW

theorem wf_invalidate (P : Policy σ π) (hS : Sane P) (s : CacheState σ π)
    (hW : Wf s) (k : Nat) : Wf (invalidate P s k) := by
  unfold invalidate
  split
  · next i heq =>
    split
    · next hv =>
      show WfCore _ _
      dsimp only
      have hb : baseEq s.entries (P.on_remove s.policy_data i s.entries).2 :=
        hS.remove_base _ _ _
      have hW2 : WfCore (setValidAt (P.on_remove s.policy_data i s.entries).2 i false)
          (i :: s.free_indices) := by
        refine wfcore_invalidate_slot (wfcore_of_baseEq hb hW) i ?_
        rw [baseEq_valid hb]
        exact hv
      have hidx : (getE (setValidAt (P.on_remove s.policy_data i s.entries).2 i false)
          (i : Int)).index = i := by
        rw [getE_setValidAt]
        have hisz : i < (P.on_remove s.policy_data i s.entries).2.size := by
          have h1 : ((i : Int)).toNat < (P.on_remove s.policy_data i s.entries).2.size :=
            valid_lt_size (by rw [baseEq_valid hb]; exact hv)
          rwa [Int.toNat_natCast] at h1
        rw [if_pos ⟨Int.toNat_natCast i, hisz⟩]
        show (getE (P.on_remove s.policy_data i s.entries).2 (i : Int)).index = i
        rw [baseEq_index hb]
        exact hW.2.2 i hv
      rw [hidx]
      exact hW2
    · exact hW
  · exact hW

theorem wf_resizeLoop (P : Policy σ π) (hS : Sane P) :
    ∀ fuel (s : CacheState σ π), Wf s → Wf (resizeLoop P fuel s) := by
  intro fuel
  induction fuel with
  | zero => intro s hW; exact hW
  | succ n ih =>
    intro s hW
    unfold resizeLoop
    split
    · rcases hevict : evict_entry P s with ⟨cand, s1⟩
      rcases cand with - | ⟨i2, k2⟩
      · exact wf_evict_none P hS s hW hevict
      · have hW1 : Wf s1 := wf_evict_some P hS s hW hevict
        exact ih { s1 with cache_map := merase k2 s1.cache_map } hW1
    · exact hW

theorem wf_resize (P : Policy σ π) (hS : Sane P) (s : CacheState σ π)
    (hW : Wf s) (n : Nat) : Wf (resize P s n) := by
  unfold resize
  exact wf_resizeLoop P hS _ { s with cache_size := n } hW

theorem getE_map_invalid (es : Array (CacheEntry π)) (j : Int) :
    (getE (es.map (fun e => { e with valid := false })) j).valid = false := by
  unfold getE Array.getD
  split
  · next h =>
    simp [Array.getElem_map]
  · show (default : CacheEntry π).valid = false
    rfl

theorem wf_clear (P : Policy σ π) (s : CacheState σ π) : Wf (clear P s) := by
  refine ⟨fun f _ => ?_, ?_, fun j hv => ?_⟩
  · exact getE_map_invalid s.entries (f : Int)
  · exact List.nodup_range s.cache_size
  · exact absurd (hv.symm.trans (getE_map_invalid s.entries (j : Int)))
      (by simp)

theorem wf_applyOp (P : Policy σ π) (hS : Sane P) (s : CacheState σ π)
    (hW : Wf s) (op : CacheOp) : Wf (applyOp P s op) := by
  cases op with
  | op_lookup k => exact wf_lookup P hS s hW k
  | op_insert k v => exact wf_insert P hS s hW k v
  | op_mark_dirty k => exact wf_mark_dirty s hW k
  | op_mark_clean k => exact wf_mark_clean s hW k
  | op_pin k => exact wf_pin s hW k
  | op_unpin k => exact wf_unpin s hW k
  | op_invalidate k => exact wf_invalidate P hS s hW k
  | op_resize n => exact wf_resize P hS s hW n
  | op_clear => exact wf_clear P s

theorem wf_runOps (P : Policy σ π) (hS : Sane P) :
    ∀ (ops : List CacheOp) (s : CacheState σ π), Wf s → Wf (runOps P s ops) := by
  intro ops
  induction ops with
  | nil => intro s hW; exact hW
  | cons op rest ih =>
    intro s hW
    exact ih (applyOp P s op) (wf_applyOp P hS s hW op)

/-- Slot `i` is resident and protected from eviction (pinned or
dirty). -/
def PinnedDirtyAt (s : CacheState σ π) (i : Nat) : Prop :=
  (getE s.entries (i : Int)).valid = true ∧
  (0 < (getE s.entries (i : Int)).pin_count ∨ (getE s.entries (i : Int)).dirty = true)

theorem getE_setValidAt_ne {i j : Nat} (es : Array (CacheEntry π)) (v : Bool)
    (hne : i ≠ j) : getE (setValidAt es j v) (i : Int) = getE es (i : Int) := by
  rw [getE_setValidAt]
  rw [if_neg]
  intro hcond
  exact hne (by have := hcond.1; rwa [Int.toNat_natCast] at this)

theorem pd_of_baseEq {s s1 : CacheState σ π} (hb : baseEq s.entries s1.entries)
    {i : Nat} (hpd : PinnedDirtyAt s i) : PinnedDirtyAt s1 i := by
  refine ⟨by rw [baseEq_valid hb]; exact hpd.1, ?_⟩
  rcases hpd.2 with hp | hd
  · exact Or.inl (by rw [baseEq_pin hb]; exact hp)
  · exact Or.inr (by rw [baseEq_dirty hb]; exact hd)

theorem evict_preserves_pd (P : Policy σ π) (hS : Sane P) (s : CacheState σ π)
    (hW : Wf s) {i : Nat} (hpd : PinnedDirtyAt s i) {r : Option (Nat × Nat)}
    {s1 : CacheState σ π} (h : evict_entry P s = (r, s1)) : PinnedDirtyAt s1 i := by
  rcases r with - | ⟨j, k⟩
  · obtain ⟨hb, -, -, -, -⟩ := evict_entry_none_spec P hS s h
    exact pd_of_baseEq hb hpd
  · obtain ⟨hv, hp, hd, -, hbase, -, -, -, -, -⟩ := evict_entry_some_spec P hS s hW h
    have hne : i ≠ j := by
      intro heq
      subst heq
      rcases hpd.2 with hpin | hdirty
      · rw [hp] at hpin
        exact absurd hpin (by norm_num)
      · rw [hd] at hdirty
        exact Bool.false_ne_true hdirty
    have hfields : getE s1.entries (i : Int) = getE (setValidAt s.entries j false) (i : Int)
        → True := fun _ => trivial
    refine ⟨?_, ?_⟩
    · rw [baseEq_valid hbase, getE_setValidAt_ne s.entries false hne]
      exact hpd.1
    · rcases hpd.2 with hpin | hdirty
      · exact Or.inl (by
          rw [baseEq_pin hbase, getE_setValidAt_ne s.entries false hne]; exact hpin)
      · exact Or.inr (by
          rw [baseEq_dirty hbase, getE_setValidAt_ne s.entries false hne]; exact hdirty)

theorem insertFresh_preserves_pd (P : Policy σ π) (hS : Sane P) (s : CacheState σ π)
    (hW : Wf s) {i : Nat} (hpd : PinnedDirtyAt s i) (k v : Nat) :
    PinnedDirtyAt (insertFresh P s k v).2 i := by
  unfold insertFresh
  split
  · exact hpd
  · next idx rest hfree =>
    have hne : i ≠ idx := by
      intro heq
      subst heq
      have hinval := hW.1 i (by rw [hfree]; exact List.mem_cons_self ..)
      have hval := hpd.1
      rw [hinval] at hval
      exact Bool.false_ne_true hval
    have hcreate : getE (create_entry P k v idx s.entries) (i : Int)
        = getE s.entries (i : Int) := by
      rw [getE_create_entry]
      rw [if_neg]
      intro hcond
      exact hne (by have := hcond.1; rwa [Int.toNat_natCast] at this)
    have hb : baseEq (create_entry P k v idx s.entries)
        (P.on_insert s.policy_data idx (create_entry P k v idx s.entries)).2 :=
      hS.insert_base _ _ _
    refine ⟨?_, ?_⟩
    · show (getE (P.on_insert s.policy_data idx (create_entry P k v idx s.entries)).2
        (i : Int)).valid = true
      rw [baseEq_valid hb, hcreate]
      exact hpd.1
    · rcases hpd.2 with hpin | hdirty
      · exact Or.inl (by
          show 0 < (getE (P.on_insert s.policy_data idx
            (create_entry P k v idx s.entries)).2 (i : Int)).pin_count
          rw [baseEq_pin hb, hcreate]; exact hpin)
      · exact Or.inr (by
          show (getE (P.on_insert s.policy_data idx
            (create_entry P k v idx s.entries)).2 (i : Int)).dirty = true
          rw [baseEq_dirty hb, hcreate]; exact hdirty)

theorem insert_preserves_pd (P : Policy σ π) (hS : Sane P) (s : CacheState σ π)
    (hW : Wf s) {i : Nat} (hpd : PinnedDirtyAt s i) (k v : Nat) :
    PinnedDirtyAt (insert P s k v).2 i := by
  unfold insert
  split
  · split
    · exact pd_of_baseEq (hS.access_base _ _ _) hpd
    · unfold insertMiss
      split
      · rcases hevict : evict_entry P s with ⟨cand, s1⟩
        rcases cand with - | ⟨i2, k2⟩
        · exact evict_preserves_pd P hS s hW hpd hevict
        · have hW1 : Wf s1 := wf_evict_some P hS s hW hevict
          have hpd1 : PinnedDirtyAt s1 i := evict_preserves_pd P hS s hW hpd hevict
          exact insertFresh_preserves_pd P hS
            { s1 with cache_map := merase k2 s1.cache_map } hW1 hpd1 k v
      · exact insertFresh_preserves_pd P hS s hW hpd k v
  · unfold insertMiss
    split
    · rcases hevict : evict_entry P s with ⟨cand, s1⟩
      rcases cand with - | ⟨i2, k2⟩
      · exact evict_preserves_pd P hS s hW hpd hevict
      · have hW1 : Wf s1 := wf_evict_some P hS s hW hevict
        have hpd1 : PinnedDirtyAt s1 i := evict_preserves_pd P hS s hW hpd hevict
        exact insertFresh_preserves_pd P hS
          { s1 with cache_map := merase k2 s1.cache_map } hW1 hpd1 k v
    · exact insertFresh_preserves_pd P hS s hW hpd k v

theorem resizeLoop_preserves_pd (P : Policy σ π) (hS : Sane P) :
    ∀ fuel (s : CacheState σ π), Wf s → ∀ {i : Nat}, PinnedDirtyAt s i →
      PinnedDirtyAt (resizeLoop P fuel s) i := by
  intro fuel
  induction fuel with
  | zero => intro s hW i hpd; exact hpd
  | succ n ih =>
    intro s hW i hpd
    unfold resizeLoop
    split
    · rcases hevict : evict_entry P s with ⟨cand, s1⟩
      rcases cand with - | ⟨i2, k2⟩
      · exact evict_preserves_pd P hS s hW hpd hevict
      · have hW1 : Wf s1 := wf_evict_some P hS s hW hevict
        have hpd1 : PinnedDirtyAt s1 i := evict_preserves_pd P hS s hW hpd hevict
        exact ih { s1 with cache_map := merase k2 s1.cache_map } hW1 hpd1
    · exact hpd

theorem setEntry_preserves_pd_flag {s : CacheState σ π} {i : Nat}
    (hpd : PinnedDirtyAt s i) (j : Nat) (f : CacheEntry π → CacheEntry π)
    (hfv : ∀ e, (f e).valid = e.valid)
    (hfm : ∀ e, 0 < e.pin_count ∨ e.dirty = true →
      0 < (f e).pin_count ∨ (f e).dirty = true) :
    PinnedDirtyAt { s with entries := setEntry s.entries j f } i := by
  show (getE (setEntry s.entries j f) (i : Int)).valid = true ∧ _
  rw [getE_setEntry]
  split
  · next hcond =>
    have hij : i = j := by
      have := hcond.1
      rwa [Int.toNat_natCast] at this
    subst hij
    refine ⟨by rw [hfv]; exact hpd.1, hfm _ hpd.2⟩
  · exact ⟨hpd.1, hpd.2⟩

/-- The heart of claim C7: a resident entry that is pinned or dirty
stays resident across any single public operation except `invalidate`
of a key mapping to its slot and `clear` (the wholesale invalidation).
In particular no eviction ever removes it. -/
theorem pd_preserved_applyOp (P : Policy σ π) (hS : Sane P) (s : CacheState σ π)
    (hW : Wf s) (i : Nat) (op : CacheOp)
    (hpd : PinnedDirtyAt s i)
    (hexc : ∀ k, op = CacheOp.op_invalidate k → mfind k s.cache_map ≠ some i)
    (hclear : op ≠ CacheOp.op_clear) :
    (getE (applyOp P s op).entries (i : Int)).valid = true := by
  cases op with
  | op_lookup k =>
    show (getE (lookup P s k).2.2.entries (i : Int)).valid = true
    unfold lookup
    split
    · split
      · exact (pd_of_baseEq (hS.access_base _ _ _) hpd).1
      · exact hpd.1
    · exact hpd.1
  | op_insert k v => exact (insert_preserves_pd P hS s hW hpd k v).1
  | op_mark_dirty k =>
    show (getE (mark_dirty s k).entries (i : Int)).valid = true
    unfold mark_dirty
    split
    · split
      · exact (setEntry_preserves_pd_flag hpd _
          (fun e => { e with dirty := true }) (fun e => rfl)
          (fun e h => Or.inr rfl)).1
      · exact hpd.1
    · exact hpd.1
  | op_mark_clean k =>
    show (getE (mark_clean s k).entries (i : Int)).valid = true
    unfold mark_clean
    split
    · next j heq =>
      split
      · next hv =>
        have hsame : (getE (setEntry s.entries j (fun e => { e with dirty := false }))
            (i : Int)).valid = (getE s.entries (i : Int)).valid := by
          rw [getE_setEntry]
          split
          · next hcond =>
            have hij : i = j := by
              have := hcond.1
              rwa [Int.toNat_natCast] at this
            subst hij
            rfl
          · rfl
        rw [hsame]
        exact hpd.1
      · exact hpd.1
    · exact hpd.1
  | op_pin k =>
    show (getE (pin s k).entries (i : Int)).valid = true
    unfold pin
    split
    · next j heq =>
      split
      · have hsame : (getE (setEntry s.entries j
            (fun e => { e with pin_count := e.pin_count + 1 }))
            (i : Int)).valid = (getE s.entries (i : Int)).valid := by
          rw [getE_setEntry]
          split
          · next hcond =>
            have hij : i = j := by
              have := hcond.1
              rwa [Int.toNat_natCast] at this
            subst hij
            rfl
          · rfl
        rw [hsame]
        exact hpd.1
      · exact hpd.1
    · exact hpd.1
  | op_unpin k =>
    show (getE (unpin s k).entries (i : Int)).valid = true
    unfold unpin
    split
    · next j heq =>
      split
      · split
        · have hsame : (getE (setEntry s.entries j
              (fun e => { e with pin_count := e.pin_count - 1 }))
              (i : Int)).valid = (getE s.entries (i : Int)).valid := by
            rw [getE_setEntry]
            split
            · next hcond =>
              have hij : i = j := by
                have := hcond.1
                rwa [Int.toNat_natCast] at this
              subst hij
              rfl
            · rfl
          rw [hsame]
          exact hpd.1
        · exact hpd.1
      · exact hpd.1
    · exact hpd.1
  | op_invalidate k =>
    show (getE (invalidate P s k).entries (i : Int)).valid = true
    unfold invalidate
    split
    · next j heq =>
      split
      · next hv =>
        have hji : j ≠ i := by
          intro hj
          exact (hexc k rfl) (hj ▸ heq)
        dsimp only
        have hb : baseEq s.entries (P.on_remove s.policy_data j s.entries).2 :=
          hS.remove_base _ _ _
        rw [baseEq_valid (baseEq_setValidAt_congr hb j false)]
        rw [getE_setValidAt_ne s.entries false (fun h => hji h.symm)]
        exact hpd.1
      · exact hpd.1
    · exact hpd.1
  | op_resize n =>
    show (getE (resize P s n).entries (i : Int)).valid = true
    unfold resize
    exact (resizeLoop_preserves_pd P hS _ { s with cache_size := n } hW hpd).1
  | op_clear => exact absurd rfl hclear

end TemplateCacheManager

end ManagerLemmas

/-! ### Association-list facts used by the primary-index invariant -/

section MapLemmas

theorem mfind_mset_self {β : Type} (k : Nat) (v : β) (m : List (Nat × β)) :
    mfind k (mset k v m) = some v := by
  induction m with
  | nil => simp [mset, mfind]
  | cons p rest ih =>
    unfold mset
    rcases Decidable.em (p.1 = k) with hk | hk
    · rcases p with ⟨a, w⟩
      simp only at hk
      simp [hk, mfind]
    · rcases p with ⟨a, w⟩
      simp only at hk
      simp only [hk, if_false]
      unfold mfind
      simp [hk, ih]

theorem mfind_mset_ne {β : Type} {a k : Nat} (v : β) (m : List (Nat × β))
    (hne : a ≠ k) : mfind a (mset k v m) = mfind a m := by
  induction m with
  | nil =>
    show mfind a [(k, v)] = mfind a ([] : List (Nat × β))
    simp only [mfind]
    rw [if_neg (fun h => hne h.symm)]
  | cons p rest ih =>
    rcases p with ⟨b, w⟩
    simp only [mset]
    split
    · next hb =>
      subst hb
      show mfind a ((b, v) :: rest) = mfind a ((b, w) :: rest)
      simp only [mfind]
      rw [if_neg (fun h => hne h.symm), if_neg (fun h => hne h.symm)]
    · show mfind a ((b, w) :: mset k v rest) = mfind a ((b, w) :: rest)
      simp only [mfind]
      split
      · rfl
      · exact ih

theorem mfind_merase_ne {β : Type} {a k : Nat} (m : List (Nat × β))
    (hne : a ≠ k) : mfind a (merase k m) = mfind a m := by
  induction m with
  | nil => rfl
  | cons p rest ih =>
    rcases p with ⟨b, w⟩
    simp only [merase]
    split
    · next hb =>
      subst hb
      have h2 : mfind a ((b, w) :: rest) = mfind a rest := by
        simp only [mfind]
        rw [if_neg (fun h => hne h.symm)]
      rw [h2]
    · show mfind a ((b, w) :: merase k rest) = mfind a ((b, w) :: rest)
      simp only [mfind]
      split
      · rfl
      · exact ih

theorem mfind_mem_keys {β : Type} {k : Nat} {v : β} {m : List (Nat × β)}
    (h : mfind k m = some v) : k ∈ m.map Prod.fst := by
  induction m with
  | nil => simp [mfind] at h
  | cons p rest ih =>
    rcases p with ⟨a, w⟩
    unfold mfind at h
    split at h
    · next ha => simp [ha]
    · simp only [List.map_cons, List.mem_cons]
      exact Or.inr (ih h)

theorem countP_flip_down (i : Nat) {f g : Nat → Bool}
    (hfi : f i = true) (hgi : g i = false)
    (hagree : ∀ j, j ≠ i → g j = f j) :
    ∀ l : List Nat, l.Nodup → i ∈ l → l.countP g + 1 = l.countP f := by
  intro l
  induction l with
  | nil => intro _ h; simp at h
  | cons a t ih =>
    intro hnd hmem
    rcases List.mem_cons.mp hmem with hai | hmem2
    · have hnin : a ∉ t := (List.nodup_cons.mp hnd).1
      have ht : t.countP g = t.countP f := by
        apply List.countP_congr
        intro x hx
        have hxi : x ≠ i := by
          intro h
          rw [h, hai] at hx
          exact hnin hx
        rw [hagree x hxi]
      rw [List.countP_cons, List.countP_cons, ht, ← hai, hfi, hgi]
      simp
    · have ha : a ≠ i := by
        intro h
        subst h
        exact (List.nodup_cons.mp hnd).1 hmem2
      rw [List.countP_cons, List.countP_cons, hagree a ha]
      have := ih (List.nodup_cons.mp hnd).2 hmem2
      omega

theorem countP_flip_up (i : Nat) {f g : Nat → Bool}
    (hfi : f i = false) (hgi : g i = true)
    (hagree : ∀ j, j ≠ i → g j = f j) :
    ∀ l : List Nat, l.Nodup → i ∈ l → l.countP g = l.countP f + 1 := by
  intro l hnd hmem
  have := countP_flip_down i hgi hfi (fun j hj => (hagree j hj).symm) l hnd hmem
  omega

end MapLemmas

section SizeLemmas

variable {σ π : Type} [Inhabited π]

namespace TemplateCacheManager

theorem size_evict_entry (P : Policy σ π) (hS : Sane P) (s : CacheState σ π)
    {r : Option (Nat × Nat)} {s1 : CacheState σ π} (h : evict_entry P s = (r, s1)) :
    s1.entries.size = s.entries.size := by
  unfold evict_entry at h
  split at h
  · next heq =>
    simp only [Prod.mk.injEq] at h
    obtain ⟨-, h1⟩ := h
    subst h1
    have hb := hS.cand_base s.policy_data s.entries can_evict
    rw [heq] at hb
    exact hb.1
  · next i' pd' es' heq =>
    simp only [Prod.mk.injEq] at h
    obtain ⟨-, h1⟩ := h
    subst h1
    have hb := hS.cand_base s.policy_data s.entries can_evict
    rw [heq] at hb
    show (P.on_remove pd' i' (setValidAt es' i' false)).2.size = s.entries.size
    rw [(hS.remove_base pd' i' (setValidAt es' i' false)).1, size_setValidAt, hb.1]

theorem size_insertFresh (P : Policy σ π) (hS : Sane P) (s : CacheState σ π)
    (k v : Nat) : (insertFresh P s k v).2.entries.size = s.entries.size := by
  unfold insertFresh
  split
  · rfl
  · next idx rest hfree =>
    show (P.on_insert s.policy_data idx (create_entry P k v idx s.entries)).2.size
      = s.entries.size
    rw [(hS.insert_base s.policy_data idx (create_entry P k v idx s.entries)).1,
      size_create_entry]

theorem size_insert (P : Policy σ π) (hS : Sane P) (s : CacheState σ π)
    (k v : Nat) : (insert P s k v).2.entries.size = s.entries.size := by
  unfold insert
  split
  · split
    · exact (hS.access_base _ _ _).1
    · unfold insertMiss
      split
      · rcases hevict : evict_entry P s with ⟨cand, s1⟩
        rcases cand with - | ⟨i2, k2⟩
        · exact size_evict_entry P hS s hevict
        · rw [size_insertFresh P hS { s1 with cache_map := merase k2 s1.cache_map } k v]
          show s1.entries.size = s.entries.size
          exact size_evict_entry P hS s hevict
      · exact size_insertFresh P hS s k v
  · unfold insertMiss
    split
    · rcases hevict : evict_entry P s with ⟨cand, s1⟩
      rcases cand with - | ⟨i2, k2⟩
      · exact size_evict_entry P hS s hevict
      · rw [size_insertFresh P hS { s1 with cache_map := merase k2 s1.cache_map } k v]
        show s1.entries.size = s.entries.size
        exact size_evict_entry P hS s hevict
    · exact size_insertFresh P hS s k v

theorem size_resizeLoop (P : Policy σ π) (hS : Sane P) :
    ∀ fuel (s : CacheState σ π), (resizeLoop P fuel s).entries.size = s.entries.size := by
  intro fuel
  induction fuel with
  | zero => intro s; rfl
  | succ n ih =>
    intro s
    unfold resizeLoop
    split
    · rcases hevict : evict_entry P s with ⟨cand, s1⟩
      rcases cand with - | ⟨i2, k2⟩
      · exact size_evict_entry P hS s hevict
      · rw [ih { s1 with cache_map := merase k2 s1.cache_map }]
        show s1.entries.size = s.entries.size
        exact size_evict_entry P hS s hevict
    · rfl

theorem size_applyOp (P : Policy σ π) (hS : Sane P) (s : CacheState σ π)
    (op : CacheOp) : (applyOp P s op).entries.size = s.entries.size := by
  cases op with
  | op_lookup k =>
    show (lookup P s k).2.2.entries.size = s.entries.size
    unfold lookup
    split
    · split
      · exact (hS.access_base _ _ _).1
      · rfl
    · rfl
  | op_insert k v => exact size_insert P hS s k v
  | op_mark_dirty k =>
    show (mark_dirty s k).entries.size = s.entries.size
    unfold mark_dirty
    split
    · split
      · exact size_setEntry ..
      · rfl
    · rfl
  | op_mark_clean k =>
    show (mark_clean s k).entries.size = s.entries.size
    unfold mark_clean
    split
    · split
      · exact size_setEntry ..
      · rfl
    · rfl
  | op_pin k =>
    show (pin s k).entries.size = s.entries.size
    unfold pin
    split
    · split
      · exact size_setEntry ..
      · rfl
    · rfl
  | op_unpin k =>
    show (unpin s k).entries.size = s.entries.size
    unfold unpin
    split
    · split
      · split
        · exact size_setEntry ..
        · rfl
      · rfl
    · rfl
  | op_invalidate k =>
    show (invalidate P s k).entries.size = s.entries.size
    unfold invalidate
    split
    · split
      · next hv =>
        dsimp only
        rw [size_setValidAt, (hS.remove_base _ _ _).1]
      · rfl
    · rfl
  | op_resize n =>
    show (resize P s n).entries.size = s.entries.size
    unfold resize
    exact size_resizeLoop P hS _ { s with cache_size := n }
  | op_clear =>
    show (clear P s).entries.size = s.entries.size
    exact Array.size_map ..

theorem size_runOps (P : Policy σ π) (hS : Sane P) :
    ∀ (ops : List CacheOp) (s : CacheState σ π),
      (runOps P s ops).entries.size = s.entries.size := by
  intro ops
  induction ops with
  | nil => intro s; rfl
  | cons op rest ih =>
    intro s
    show (runOps P (applyOp P s op) rest).entries.size = s.entries.size
    rw [ih (applyOp P s op), size_applyOp P hS s op]

theorem size_initCache (P : Policy σ π) (c : Nat) :
    (initCache P c).entries.size = c := Array.size_mkArray ..

theorem countValid_le_size (es : Array (CacheEntry π)) : countValid es ≤ es.size := by
  unfold countValid
  exact le_trans (List.length_filter_le _ _) (le_of_eq (List.length_range _))

end TemplateCacheManager

end SizeLemmas

section UsedInvLemmas

variable {σ π : Type} [Inhabited π]

namespace TemplateCacheManager

theorem countValid_eq_countP (es : Array (CacheEntry π)) :
    countValid es
      = (List.range es.size).countP (fun j : Nat => (getE es (j : Int)).valid) :=
  (List.countP_eq_length_filter _ _).symm

theorem countValid_congr {a b : Array (CacheEntry π)} (hb : baseEq a b) :
    countValid b = countValid a := by
  rw [countValid_eq_countP, countValid_eq_countP, hb.1]
  apply List.countP_congr
  intro j hj
  rw [baseEq_valid hb]

theorem countValid_setValidAt_false {es : Array (CacheEntry π)} {i : Nat}
    (hv : (getE es (i : Int)).valid = true) :
    countValid (setValidAt es i false) + 1 = countValid es := by
  have hlt : i < es.size := by
    have := valid_lt_size hv
    rwa [Int.toNat_natCast] at this
  rw [countValid_eq_countP, countValid_eq_countP, size_setValidAt]
  apply countP_flip_down i hv
  · rw [getE_setValidAt, if_pos ⟨Int.toNat_natCast i, hlt⟩]
  · intro j hj
    rw [getE_setValidAt, if_neg]
    intro hcond
    exact hj (by have := hcond.1; rwa [Int.toNat_natCast] at this)
  · exact List.nodup_range es.size
  · exact List.mem_range.mpr hlt

theorem countValid_create_entry (P : Policy σ π) (k v : Nat)
    {es : Array (CacheEntry π)} {idx : Nat} (hlt : idx < es.size)
    (hinv : (getE es (idx : Int)).valid = false) :
    countValid (create_entry P k v idx es) = countValid es + 1 := by
  rw [countValid_eq_countP, countValid_eq_countP, size_create_entry]
  apply countP_flip_up idx (by rw [hinv])
  · rw [getE_create_entry, if_pos ⟨Int.toNat_natCast idx, hlt⟩]
    rfl
  · intro j hj
    rw [getE_create_entry, if_neg]
    intro hcond
    exact hj (by have := hcond.1; rwa [Int.toNat_natCast] at this)
  · exact List.nodup_range es.size
  · exact List.mem_range.mpr hlt

theorem countValid_all_invalid (es : Array (CacheEntry π)) :
    countValid (es.map (fun e => { e with valid := false })) = 0 := by
  rw [countValid_eq_countP]
  rw [List.countP_eq_zero]
  intro j hj
  rw [getE_map_invalid]
  simp

/-- First half of the amended claim C2: `used_entries` counts exactly
the valid entries. -/
def UsedInv (s : CacheState σ π) : Prop :=
  s.used_entries = countValid s.entries ∧
  ∀ j : Nat, (getE s.entries (j : Int)).valid = true →
    mfind (getE s.entries (j : Int)).key s.cache_map = some j

/-- All free-stack slots are inside the slab. -/
def FreeBound (s : CacheState σ π) : Prop :=
  ∀ f ∈ s.free_indices, f < s.entries.size

end TemplateCacheManager

end UsedInvLemmas

section C2Machinery

variable {σ π : Type} [Inhabited π]

namespace TemplateCacheManager

theorem usedinv_of_baseEq {s s1 : CacheState σ π} (hb : baseEq s.entries s1.entries)
    (hmap : s1.cache_map = s.cache_map) (hused : s1.used_entries = s.used_entries)
    (hU : UsedInv s) : UsedInv s1 := by
  constructor
  · rw [hused, countValid_congr hb]
    exact hU.1
  · intro j hv
    rw [baseEq_valid hb] at hv
    rw [baseEq_key hb, hmap]
    exact hU.2 j hv

theorem freebound_of (s s1 : CacheState σ π)
    (hsz : s1.entries.size = s.entries.size)
    (hfree : s1.free_indices = s.free_indices) (hF : FreeBound s) : FreeBound s1 := by
  intro f hf
  rw [hsz]
  exact hF f (hfree ▸ hf)

theorem usedinv_evict_erase (P : Policy σ π) (hS : Sane P) (s : CacheState σ π)
    (hW : Wf s) (hU : UsedInv s) (hF : FreeBound s) {i k : Nat} {s1 : CacheState σ π}
    (h : evict_entry P s = (some (i, k), s1)) :
    UsedInv { s1 with cache_map := merase k s1.cache_map } ∧
    FreeBound { s1 with cache_map := merase k s1.cache_map } := by
  obtain ⟨hv, hp, hd, hkey, hbase, hfree, hmap, hcs, hused, hev⟩ :=
    evict_entry_some_spec P hS s hW h
  have hsz : s1.entries.size = s.entries.size :=
    hbase.1.trans (size_setValidAt ..)
  have hcv : countValid s1.entries + 1 = countValid s.entries := by
    rw [countValid_congr hbase]
    exact countValid_setValidAt_false hv
  have hlt : i < s.entries.size := by
    have := valid_lt_size hv
    rwa [Int.toNat_natCast] at this
  refine ⟨⟨?_, ?_⟩, ?_⟩
  · show s1.used_entries = countValid s1.entries
    rw [hused, hU.1]
    omega
  · intro j hvj
    have hvj1 : (getE (setValidAt s.entries i false) (j : Int)).valid = true := by
      rw [← baseEq_valid hbase]
      exact hvj
    have hji : j ≠ i := by
      intro hj
      subst hj
      rw [getE_setValidAt, if_pos ⟨Int.toNat_natCast j, hlt⟩] at hvj1
      exact absurd hvj1 (by simp)
    have hEj : getE (setValidAt s.entries i false) (j : Int) = getE s.entries (j : Int) :=
      getE_setValidAt_ne s.entries false hji
    rw [hEj] at hvj1
    have hkeyj : (getE s1.entries (j : Int)).key = (getE s.entries (j : Int)).key := by
      rw [baseEq_key hbase, hEj]
    show mfind (getE s1.entries (j : Int)).key (merase k s1.cache_map) = some j
    rw [hkeyj, hmap]
    have hne : (getE s.entries (j : Int)).key ≠ k := by
      intro hk
      have h1 := hU.2 j hvj1
      have h2 := hU.2 i hv
      rw [hk, hkey] at h1
      rw [h1] at h2
      exact hji (Option.some.injEq .. ▸ h2.symm ▸ rfl)
    rw [mfind_merase_ne _ hne]
    exact hU.2 j hvj1
  · intro f hf
    show f < s1.entries.size
    rw [hsz]
    rcases List.mem_cons.mp (hfree ▸ hf) with hfi | hfm
    · exact hfi ▸ hlt
    · exact hF f hfm

theorem usedinv_insertFresh (P : Policy σ π) (hS : Sane P) (s : CacheState σ π)
    (hW : Wf s) (hU : UsedInv s) (hF : FreeBound s) (k v : Nat)
    (hknew : ∀ j : Nat, (getE s.entries (j : Int)).valid = true →
      (getE s.entries (j : Int)).key ≠ k) :
    UsedInv (insertFresh P s k v).2 ∧ FreeBound (insertFresh P s k v).2 := by
  unfold insertFresh
  split
  · exact ⟨hU, hF⟩
  · next idx rest hfree =>
    have hlt : idx < s.entries.size := hF idx (by rw [hfree]; exact List.mem_cons_self ..)
    have hinv : (getE s.entries (idx : Int)).valid = false :=
      hW.1 idx (by rw [hfree]; exact List.mem_cons_self ..)
    have hb : baseEq (create_entry P k v idx s.entries)
        (P.on_insert s.policy_data idx (create_entry P k v idx s.entries)).2 :=
      hS.insert_base _ _ _
    refine ⟨⟨?_, ?_⟩, ?_⟩
    · show s.used_entries + 1 = countValid
        (P.on_insert s.policy_data idx (create_entry P k v idx s.entries)).2
      rw [countValid_congr hb, countValid_create_entry P k v hlt hinv, hU.1]
    · intro j hvj
      have hvj1 : (getE (create_entry P k v idx s.entries) (j : Int)).valid = true := by
        rw [← baseEq_valid hb]
        exact hvj
      have hkeyj : (getE (P.on_insert s.policy_data idx
          (create_entry P k v idx s.entries)).2 (j : Int)).key
          = (getE (create_entry P k v idx s.entries) (j : Int)).key :=
        baseEq_key hb _
      show mfind _ (mset k idx s.cache_map) = some j
      rw [hkeyj]
      rcases Decidable.em (j = idx) with hji | hji
      · subst hji
        rw [getE_create_entry, if_pos ⟨Int.toNat_natCast j, hlt⟩]
        show mfind k (mset k j s.cache_map) = some j
        exact mfind_mset_self ..
      · have hcne : ¬((j : Int).toNat = idx ∧ idx < s.entries.size) := by
          rw [Int.toNat_natCast]
          intro hcond
          exact hji hcond.1
        rw [getE_create_entry, if_neg hcne]
        rw [getE_create_entry, if_neg hcne] at hvj1
        rw [mfind_mset_ne _ _ (hknew j hvj1)]
        exact hU.2 j hvj1
    · intro f hf
      show f < (P.on_insert s.policy_data idx (create_entry P k v idx s.entries)).2.size
      rw [hb.1, size_create_entry]
      exact hF f (by rw [hfree]; exact List.mem_cons_of_mem _ hf)

end TemplateCacheManager

end C2Machinery

section C2Machinery2

variable {σ π : Type} [Inhabited π]

namespace TemplateCacheManager

theorem evict_entry_some_valid (P : Policy σ π) (hS : Sane P) (s : CacheState σ π)
    (hW : Wf s) {i k : Nat} {s1 : CacheState σ π}
    (h : evict_entry P s = (some (i, k), s1)) (j : Nat)
    (hvj : (getE s1.entries (j : Int)).valid = true) :
    j ≠ i ∧ (getE s.entries (j : Int)).valid = true ∧
      (getE s1.entries (j : Int)).key = (getE s.entries (j : Int)).key := by
  obtain ⟨hv, -, -, -, hbase, -, -, -, -, -⟩ := evict_entry_some_spec P hS s hW h
  have hlt : i < s.entries.size := by
    have := valid_lt_size hv
    rwa [Int.toNat_natCast] at this
  have hvj1 : (getE (setValidAt s.entries i false) (j : Int)).valid = true := by
    rw [← baseEq_valid hbase]
    exact hvj
  have hji : j ≠ i := by
    intro hj
    rw [hj, getE_setValidAt, if_pos ⟨Int.toNat_natCast i, hlt⟩] at hvj1
    exact absurd hvj1 (by simp)
  have hEj : getE (setValidAt s.entries i false) (j : Int) = getE s.entries (j : Int) :=
    getE_setValidAt_ne s.entries false hji
  refine ⟨hji, ?_, ?_⟩
  · rw [hEj] at hvj1
    exact hvj1
  · rw [baseEq_key hbase, hEj]

theorem countValid_setEntry_flag (es : Array (CacheEntry π)) (i : Nat)
    (f : CacheEntry π → CacheEntry π) (hfv : ∀ e, (f e).valid = e.valid) :
    countValid (setEntry es i f) = countValid es := by
  rw [countValid_eq_countP, countValid_eq_countP, size_setEntry]
  apply List.countP_congr
  intro j hj
  rw [getE_setEntry]
  split
  · next hcond =>
    obtain ⟨hji, hilt⟩ := hcond
    rw [Int.toNat_natCast] at hji
    subst hji
    rw [hfv]
  · exact Iff.rfl

theorem usedinv_setEntry_flag (s : CacheState σ π) (hU : UsedInv s) (i : Nat)
    (f : CacheEntry π → CacheEntry π) (hfv : ∀ e, (f e).valid = e.valid)
    (hfk : ∀ e, (f e).key = e.key) :
    UsedInv { s with entries := setEntry s.entries i f } := by
  constructor
  · show s.used_entries = countValid (setEntry s.entries i f)
    rw [countValid_setEntry_flag s.entries i f hfv]
    exact hU.1
  · intro j hvj
    have hvj1 : (getE (setEntry s.entries i f) (j : Int)).valid = true := hvj
    rw [getE_setEntry] at hvj1
    show mfind (getE (setEntry s.entries i f) (j : Int)).key s.cache_map = some j
    rw [getE_setEntry]
    by_cases hc : (j : Int).toNat = i ∧ i < s.entries.size
    · rw [if_pos hc] at hvj1 ⊢
      rw [hfv] at hvj1
      rw [hfk]
      have hji : j = i := by
        have := hc.1
        rwa [Int.toNat_natCast] at this
      rw [hji]
      exact hU.2 i hvj1
    · rw [if_neg hc] at hvj1 ⊢
      exact hU.2 j hvj1

theorem c2_setEntry_state (s : CacheState σ π) (hU : UsedInv s) (hF : FreeBound s)
    (i : Nat) (f : CacheEntry π → CacheEntry π) (hfv : ∀ e, (f e).valid = e.valid)
    (hfk : ∀ e, (f e).key = e.key) :
    UsedInv { s with entries := setEntry s.entries i f } ∧
      FreeBound { s with entries := setEntry s.entries i f } := by
  refine ⟨usedinv_setEntry_flag s hU i f hfv hfk, ?_⟩
  intro g hg
  show g < (setEntry s.entries i f).size
  rw [size_setEntry]
  exact hF g hg

theorem c2_mark_dirty (s : CacheState σ π) (hU : UsedInv s) (hF : FreeBound s)
    (k : Nat) : UsedInv (mark_dirty s k) ∧ FreeBound (mark_dirty s k) := by
  unfold mark_dirty
  split
  · split
    · exact c2_setEntry_state s hU hF _ _ (fun e => rfl) (fun e => rfl)
    · exact ⟨hU, hF⟩
  · exact ⟨hU, hF⟩

theorem c2_mark_clean (s : CacheState σ π) (hU : UsedInv s) (hF : FreeBound s)
    (k : Nat) : UsedInv (mark_clean s k) ∧ FreeBound (mark_clean s k) := by
  unfold mark_clean
  split
  · split
    · exact c2_setEntry_state s hU hF _ _ (fun e => rfl) (fun e => rfl)
    · exact ⟨hU, hF⟩
  · exact ⟨hU, hF⟩

theorem c2_pin (s : CacheState σ π) (hU : UsedInv s) (hF : FreeBound s)
    (k : Nat) : UsedInv (pin s k) ∧ FreeBound (pin s k) := by
  unfold pin
  split
  · split
    · exact c2_setEntry_state s hU hF _ _ (fun e => rfl) (fun e => rfl)
    · exact ⟨hU, hF⟩
  · exact ⟨hU, hF⟩

theorem c2_unpin (s : CacheState σ π) (hU : UsedInv s) (hF : FreeBound s)
    (k : Nat) : UsedInv (unpin s k) ∧ FreeBound (unpin s k) := by
  unfold unpin
  split
  · split
    · split
      · exact c2_setEntry_state s hU hF _ _ (fun e => rfl) (fun e => rfl)
      · exact ⟨hU, hF⟩
    · exact ⟨hU, hF⟩
  · exact ⟨hU, hF⟩

theorem c2_lookup (P : Policy σ π) (hS : Sane P) (s : CacheState σ π)
    (hU : UsedInv s) (hF : FreeBound s) (k : Nat) :
    UsedInv (lookup P s k).2.2 ∧ FreeBound (lookup P s k).2.2 := by
  unfold lookup
  split
  · split
    · refine ⟨usedinv_of_baseEq (hS.access_base _ _ _) rfl rfl hU, ?_⟩
      intro g hg
      show g < (P.on_access s.policy_data _ s.entries).2.size
      rw [(hS.access_base s.policy_data _ s.entries).1]
      exact hF g hg
    · exact ⟨hU, hF⟩
  · exact ⟨hU, hF⟩

theorem c2_invalidate (P : Policy σ π) (hS : Sane P) (s : CacheState σ π)
    (hW : Wf s) (hU : UsedInv s) (hF : FreeBound s) (k : Nat) :
    UsedInv (invalidate P s k) ∧ FreeBound (invalidate P s k) := by
  unfold invalidate
  split
  · next i heq =>
    split
    · next hv =>
      have hbase : baseEq s.entries (P.on_remove s.policy_data i s.entries).2 :=
        hS.remove_base _ _ _
      have hlt : i < s.entries.size := by
        have := valid_lt_size hv
        rwa [Int.toNat_natCast] at this
      have hltr : i < (P.on_remove s.policy_data i s.entries).2.size := by
        rw [hbase.1]
        exact hlt
      have hvr : (getE (P.on_remove s.policy_data i s.entries).2 (i : Int)).valid = true := by
        rw [baseEq_valid hbase]
        exact hv
      have hcv : countValid
          (setValidAt (P.on_remove s.policy_data i s.entries).2 i false) + 1
          = countValid s.entries := by
        rw [countValid_setValidAt_false hvr, countValid_congr hbase]
      refine ⟨⟨?_, ?_⟩, ?_⟩
      · show s.used_entries - 1 = countValid
          (setValidAt (P.on_remove s.policy_data i s.entries).2 i false)
        have := hU.1
        omega
      · intro j hvj
        have hvj1 : (getE (setValidAt (P.on_remove s.policy_data i s.entries).2 i false)
            (j : Int)).valid = true := hvj
        have hji : j ≠ i := by
          intro hj
          rw [hj, getE_setValidAt, if_pos ⟨Int.toNat_natCast i, hltr⟩] at hvj1
          exact absurd hvj1 (by simp)
        rw [getE_setValidAt_ne _ false hji, baseEq_valid hbase] at hvj1
        show mfind (getE (setValidAt (P.on_remove s.policy_data i s.entries).2 i false)
          (j : Int)).key s.cache_map = some j
        rw [getE_setValidAt_ne _ false hji, baseEq_key hbase]
        exact hU.2 j hvj1
      · intro g hg
        show g < (setValidAt (P.on_remove s.policy_data i s.entries).2 i false).size
        rw [size_setValidAt, hbase.1]
        have hg1 : g ∈ (getE (setValidAt (P.on_remove s.policy_data i s.entries).2 i false)
            (i : Int)).index :: s.free_indices := hg
        rcases List.mem_cons.mp hg1 with hgi | hgm
        · have hidx : (getE (setValidAt (P.on_remove s.policy_data i s.entries).2 i false)
              (i : Int)).index = i := by
            rw [getE_setValidAt, if_pos ⟨Int.toNat_natCast i, hltr⟩]
            show (getE (P.on_remove s.policy_data i s.entries).2 (i : Int)).index = i
            rw [baseEq_index hbase]
            exact hW.2.2 i hv
          rw [hgi, hidx]
          exact hlt
        · exact hF g hgm
    · exact ⟨hU, hF⟩
  · exact ⟨hU, hF⟩

theorem c2_insertMiss (P : Policy σ π) (hS : Sane P) (s : CacheState σ π)
    (hW : Wf s) (hU : UsedInv s) (hF : FreeBound s) (k v : Nat)
    (hknew : ∀ j : Nat, (getE s.entries (j : Int)).valid = true →
      (getE s.entries (j : Int)).key ≠ k) :
    UsedInv (insertMiss P s k v).2 ∧ FreeBound (insertMiss P s k v).2 := by
  unfold insertMiss
  split
  · rcases hevict : evict_entry P s with ⟨cand, s1⟩
    rcases cand with - | ⟨i2, k2⟩
    · obtain ⟨hbase, hmap, hfree, -, hused⟩ := evict_entry_none_spec P hS s hevict
      exact ⟨usedinv_of_baseEq hbase hmap hused hU, freebound_of s s1 hbase.1 hfree hF⟩
    · obtain ⟨hU2, hF2⟩ := usedinv_evict_erase P hS s hW hU hF hevict
      have hW1 : Wf s1 := wf_evict_some P hS s hW hevict
      have hW2 : Wf { s1 with cache_map := merase k2 s1.cache_map } := hW1
      have hknew2 : ∀ j : Nat,
          (getE ({ s1 with cache_map := merase k2 s1.cache_map } :
            CacheState σ π).entries (j : Int)).valid = true →
          (getE ({ s1 with cache_map := merase k2 s1.cache_map } :
            CacheState σ π).entries (j : Int)).key ≠ k := by
        intro j hvj
        obtain ⟨-, hvs, hkeq⟩ := evict_entry_some_valid P hS s hW hevict j hvj
        show (getE s1.entries (j : Int)).key ≠ k
        rw [hkeq]
        exact hknew j hvs
      exact usedinv_insertFresh P hS _ hW2 hU2 hF2 k v hknew2
  · exact usedinv_insertFresh P hS s hW hU hF k v hknew

theorem c2_insert (P : Policy σ π) (hS : Sane P) (s : CacheState σ π)
    (hW : Wf s) (hU : UsedInv s) (hF : FreeBound s) (k v : Nat) :
    UsedInv (insert P s k v).2 ∧ FreeBound (insert P s k v).2 := by
  unfold insert
  split
  · next i heq =>
    split
    · refine ⟨usedinv_of_baseEq (hS.access_base _ _ _) rfl rfl hU, ?_⟩
      intro g hg
      show g < (P.on_access s.policy_data i s.entries).2.size
      rw [(hS.access_base s.policy_data i s.entries).1]
      exact hF g hg
    · next hv =>
      apply c2_insertMiss P hS s hW hU hF k v
      intro j hvj hkey
      have h1 := hU.2 j hvj
      rw [hkey, heq] at h1
      have hij : i = j := Option.some.inj h1
      rw [← hij] at hvj
      exact hv hvj
  · next heq =>
    apply c2_insertMiss P hS s hW hU hF k v
    intro j hvj hkey
    have h1 := hU.2 j hvj
    rw [hkey, heq] at h1
    exact Option.noConfusion h1

theorem c2_resizeLoop (P : Policy σ π) (hS : Sane P) :
    ∀ fuel (s : CacheState σ π), Wf s → UsedInv s → FreeBound s →
      UsedInv (resizeLoop P fuel s) ∧ FreeBound (resizeLoop P fuel s) := by
  intro fuel
  induction fuel with
  | zero =>
    intro s _ hU hF
    exact ⟨hU, hF⟩
  | succ n ih =>
    intro s hW hU hF
    unfold resizeLoop
    split
    · rcases hevict : evict_entry P s with ⟨cand, s1⟩
      rcases cand with - | ⟨i2, k2⟩
      · obtain ⟨hbase, hmap, hfree, -, hused⟩ := evict_entry_none_spec P hS s hevict
        exact ⟨usedinv_of_baseEq hbase hmap hused hU, freebound_of s s1 hbase.1 hfree hF⟩
      · obtain ⟨hU2, hF2⟩ := usedinv_evict_erase P hS s hW hU hF hevict
        have hW1 : Wf s1 := wf_evict_some P hS s hW hevict
        have hW2 : Wf { s1 with cache_map := merase k2 s1.cache_map } := hW1
        exact ih { s1 with cache_map := merase k2 s1.cache_map } hW2 hU2 hF2
    · exact ⟨hU, hF⟩

theorem c2_resize (P : Policy σ π) (hS : Sane P) (s : CacheState σ π)
    (hW : Wf s) (hU : UsedInv s) (hF : FreeBound s) (n : Nat) :
    UsedInv (resize P s n) ∧ FreeBound (resize P s n) := by
  unfold resize
  have hW1 : Wf { s with cache_size := n } := hW
  have hU1 : UsedInv { s with cache_size := n } := hU
  have hF1 : FreeBound { s with cache_size := n } := hF
  exact c2_resizeLoop P hS _ _ hW1 hU1 hF1

theorem c2_clear (P : Policy σ π) (s : CacheState σ π)
    (hcs : s.cache_size ≤ s.entries.size) :
    UsedInv (clear P s) ∧ FreeBound (clear P s) := by
  refine ⟨⟨?_, ?_⟩, ?_⟩
  · show 0 = countValid (s.entries.map (fun e => { e with valid := false }))
    rw [countValid_all_invalid]
  · intro j hvj
    have hvj1 : (getE (s.entries.map (fun e => { e with valid := false }))
        (j : Int)).valid = true := hvj
    rw [getE_map_invalid] at hvj1
    exact absurd hvj1 (by simp)
  · intro g hg
    simp only [clear] at hg ⊢
    rw [Array.size_map]
    exact lt_of_lt_of_le (List.mem_range.mp hg) hcs

theorem c2_applyOp (P : Policy σ π) (hS : Sane P) (s : CacheState σ π)
    (hW : Wf s) (hU : UsedInv s) (hF : FreeBound s)
    (hcs : s.cache_size ≤ s.entries.size) (op : CacheOp) :
    UsedInv (applyOp P s op) ∧ FreeBound (applyOp P s op) := by
  cases op with
  | op_lookup k => exact c2_lookup P hS s hU hF k
  | op_insert k v => exact c2_insert P hS s hW hU hF k v
  | op_mark_dirty k => exact c2_mark_dirty s hU hF k
  | op_mark_clean k => exact c2_mark_clean s hU hF k
  | op_pin k => exact c2_pin s hU hF k
  | op_unpin k => exact c2_unpin s hU hF k
  | op_invalidate k => exact c2_invalidate P hS s hW hU hF k
  | op_resize n => exact c2_resize P hS s hW hU hF n
  | op_clear => exact c2_clear P s hcs

end TemplateCacheManager

end C2Machinery2

section C2Machinery3

variable {σ π : Type} [Inhabited π]

namespace TemplateCacheManager

theorem cache_size_evict (P : Policy σ π) (s : CacheState σ π)
    {r : Option (Nat × Nat)} {s1 : CacheState σ π} (h : evict_entry P s = (r, s1)) :
    s1.cache_size = s.cache_size := by
  unfold evict_entry at h
  split at h
  · next heq =>
    simp only [Prod.mk.injEq] at h
    obtain ⟨-, h1⟩ := h
    subst h1
    rfl
  · next i' pd' es' heq =>
    simp only [Prod.mk.injEq] at h
    obtain ⟨-, h1⟩ := h
    subst h1
    rfl

theorem cache_size_insertFresh (P : Policy σ π) (s : CacheState σ π) (k v : Nat) :
    (insertFresh P s k v).2.cache_size = s.cache_size := by
  unfold insertFresh
  split
  · rfl
  · rfl

theorem cache_size_insert (P : Policy σ π) (s : CacheState σ π) (k v : Nat) :
    (insert P s k v).2.cache_size = s.cache_size := by
  unfold insert
  split
  · split
    · rfl
    · unfold insertMiss
      split
      · rcases hevict : evict_entry P s with ⟨cand, s1⟩
        rcases cand with - | ⟨i2, k2⟩
        · exact cache_size_evict P s hevict
        · rw [cache_size_insertFresh P { s1 with cache_map := merase k2 s1.cache_map } k v]
          show s1.cache_size = s.cache_size
          exact cache_size_evict P s hevict
      · exact cache_size_insertFresh P s k v
  · unfold insertMiss
    split
    · rcases hevict : evict_entry P s with ⟨cand, s1⟩
      rcases cand with - | ⟨i2, k2⟩
      · exact cache_size_evict P s hevict
      · rw [cache_size_insertFresh P { s1 with cache_map := merase k2 s1.cache_map } k v]
        show s1.cache_size = s.cache_size
        exact cache_size_evict P s hevict
    · exact cache_size_insertFresh P s k v

theorem cache_size_resizeLoop (P : Policy σ π) :
    ∀ fuel (s : CacheState σ π), (resizeLoop P fuel s).cache_size = s.cache_size := by
  intro fuel
  induction fuel with
  | zero =>
    intro s
    rfl
  | succ n ih =>
    intro s
    unfold resizeLoop
    split
    · rcases hevict : evict_entry P s with ⟨cand, s1⟩
      rcases cand with - | ⟨i2, k2⟩
      · exact cache_size_evict P s hevict
      · rw [ih { s1 with cache_map := merase k2 s1.cache_map }]
        show s1.cache_size = s.cache_size
        exact cache_size_evict P s hevict
    · rfl

theorem cache_size_applyOp (P : Policy σ π) (s : CacheState σ π) (op : CacheOp) :
    (applyOp P s op).cache_size
      = match op with
        | CacheOp.op_resize n => n
        | _ => s.cache_size := by
  cases op with
  | op_lookup k =>
    show (lookup P s k).2.2.cache_size = s.cache_size
    unfold lookup
    split
    · split <;> rfl
    · rfl
  | op_insert k v => exact cache_size_insert P s k v
  | op_mark_dirty k =>
    show (mark_dirty s k).cache_size = s.cache_size
    unfold mark_dirty
    split
    · split <;> rfl
    · rfl
  | op_mark_clean k =>
    show (mark_clean s k).cache_size = s.cache_size
    unfold mark_clean
    split
    · split <;> rfl
    · rfl
  | op_pin k =>
    show (pin s k).cache_size = s.cache_size
    unfold pin
    split
    · split <;> rfl
    · rfl
  | op_unpin k =>
    show (unpin s k).cache_size = s.cache_size
    unfold unpin
    split
    · split
      · split <;> rfl
      · rfl
    · rfl
  | op_invalidate k =>
    show (invalidate P s k).cache_size = s.cache_size
    unfold invalidate
    split
    · split <;> rfl
    · rfl
  | op_resize n =>
    show (resize P s n).cache_size = n
    unfold resize
    rw [cache_size_resizeLoop]
  | op_clear => rfl

theorem c2_runOps (P : Policy σ π) (hS : Sane P) :
    ∀ (ops : List CacheOp) (s : CacheState σ π), Wf s → UsedInv s → FreeBound s →
      s.cache_size ≤ s.entries.size →
      (∀ n, CacheOp.op_resize n ∈ ops → n ≤ s.entries.size) →
      UsedInv (runOps P s ops) ∧ FreeBound (runOps P s ops) ∧
        (runOps P s ops).cache_size ≤ (runOps P s ops).entries.size := by
  intro ops
  induction ops with
  | nil =>
    intro s _ hU hF hcs _
    exact ⟨hU, hF, hcs⟩
  | cons op rest ih =>
    intro s hW hU hF hcs hres
    have hsz : (applyOp P s op).entries.size = s.entries.size := size_applyOp P hS s op
    have hcs1 : (applyOp P s op).cache_size ≤ (applyOp P s op).entries.size := by
      rw [hsz]
      have hm := cache_size_applyOp P s op
      cases op
      all_goals rw [hm]
      all_goals first
        | exact hcs
        | exact hres _ (List.mem_cons_self ..)
    obtain ⟨hU1, hF1⟩ := c2_applyOp P hS s hW hU hF hcs op
    have hW1 : Wf (applyOp P s op) := wf_applyOp P hS s hW op
    have hres1 : ∀ n, CacheOp.op_resize n ∈ rest → n ≤ (applyOp P s op).entries.size := by
      intro n hn
      rw [hsz]
      exact hres n (List.mem_cons_of_mem _ hn)
    exact ih (applyOp P s op) hW1 hU1 hF1 hcs1 hres1

theorem usedinv_initCache (P : Policy σ π) (c : Nat) : UsedInv (initCache P c) := by
  constructor
  · show 0 = countValid (Array.mkArray c (default : CacheEntry π))
    rw [countValid_eq_countP, List.countP_eq_zero.mpr]
    intro j hj
    show ¬((getE (Array.mkArray c (default : CacheEntry π)) (j : Int)).valid = true)
    rw [getE_mkArray]
    simp [default, instInhabitedCacheEntry]
  · intro j hvj
    have hvj1 : (getE (Array.mkArray c (default : CacheEntry π)) (j : Int)).valid = true := hvj
    rw [getE_mkArray] at hvj1
    exact absurd hvj1 (by simp [default, instInhabitedCacheEntry])

theorem freebound_initCache (P : Policy σ π) (c : Nat) : FreeBound (initCache P c) := by
  intro g hg
  show g < (Array.mkArray c (default : CacheEntry π)).size
  rw [Array.size_mkArray]
  exact List.mem_range.mp hg

theorem used_le_map_length (s : CacheState σ π) (hU : UsedInv s) :
    s.used_entries ≤ s.cache_map.length := by
  rw [hU.1]
  unfold countValid
  have hnd : ((List.range s.entries.size).filter
      (fun j : Nat => (getE s.entries (j : Int)).valid)).Nodup :=
    (List.nodup_range _).filter _
  have hinj : ∀ x ∈ (List.range s.entries.size).filter
        (fun j : Nat => (getE s.entries (j : Int)).valid),
      ∀ y ∈ (List.range s.entries.size).filter
        (fun j : Nat => (getE s.entries (j : Int)).valid),
      (getE s.entries (x : Int)).key = (getE s.entries (y : Int)).key → x = y := by
    intro x hx y hy hkey
    have hvx : (getE s.entries (x : Int)).valid = true := (List.mem_filter.mp hx).2
    have hvy : (getE s.entries (y : Int)).valid = true := (List.mem_filter.mp hy).2
    have h1 := hU.2 x hvx
    have h2 := hU.2 y hvy
    rw [hkey] at h1
    rw [h1] at h2
    exact Option.some.inj h2
  have hsub : ((List.range s.entries.size).filter
        (fun j : Nat => (getE s.entries (j : Int)).valid)).map
        (fun j : Nat => (getE s.entries (j : Int)).key)
      ⊆ s.cache_map.map Prod.fst := by
    intro a ha
    rw [List.mem_map] at ha
    obtain ⟨j, hj, hkey⟩ := ha
    have hv : (getE s.entries (j : Int)).valid = true := (List.mem_filter.mp hj).2
    rw [← hkey]
    exact mfind_mem_keys (hU.2 j hv)
  have hsp := List.subperm_of_subset (List.Nodup.map_on hinj hnd) hsub
  have hle := hsp.length_le
  rw [List.length_map, List.length_map] at hle
  exact hle

end TemplateCacheManager

end C2Machinery3

section PageServerModel

namespace PageServer

/-- Constants of `pageserver.h`. -/
def PAGESERVER_MAGIC : Nat := 0x50414745

def PAGESERVER_VERSION : Nat := 1

def PAGE_CMD_READ : Nat := 0x01

def PAGE_CMD_WRITE : Nat := 0x02

def PAGE_CMD_FLUSH : Nat := 0x03

def PAGE_CMD_DISCARD : Nat := 0x04

def PAGE_CMD_STAT : Nat := 0x05

/-- `struct page_request` (reserved padding omitted): `magic` and
`version` are `uint32_t`, `cmd` is `uint8_t`, `offset` is `uint64_t`
and `length` is `uint32_t`; the fields are kept as `Nat` with the
64-bit wrap made explicit where the C++ adds them. -/
structure page_request where
  magic : Nat
  version : Nat
  cmd : Nat
  offset : Nat
  length : Nat
deriving DecidableEq

/-- `PageServer::validate_request`: for READ/WRITE/DISCARD, reject when
`offset + length` wraps around `uint64_t` or exceeds the backing file
size; other commands pass.  `offset + length` is computed in
`uint64_t`, hence the `% 2 ^ 64`. -/
def validate_request (file_size : Nat) (req : page_request) : Bool :=
  if req.cmd = PAGE_CMD_READ ∨ req.cmd = PAGE_CMD_WRITE ∨ req.cmd = PAGE_CMD_DISCARD then
    if req.length > 0 ∧ (req.offset + req.length) % 2 ^ 64 < req.offset then false
    else if (req.offset + req.length) % 2 ^ 64 > file_size then false
    else true
  else true

/-- Which request handler the `switch` of `PageServer::run` calls. -/
inductive HandlerCall where
  | h_read
  | h_write
  | h_flush
  | h_discard
  | h_stat
deriving DecidableEq

/-- The observable outcome of one iteration of the inner client loop of
`PageServer::run` for one received request: whether an ERROR response
is sent, whether the `while` loop is left (closing the connection), and
which handler runs. -/
structure StepResult where
  sent_error : Bool
  closes : Bool
  handled : Option HandlerCall
deriving DecidableEq

/-- One iteration of the inner client loop of `PageServer::run` for a
successfully received request, with `send_response` succeeding.  Bad
magic/version and validation failure send an ERROR and `break` the
`while` loop.  The `default:` arm of the `switch` sends an ERROR and
logs "Closing connection due to invalid command", but its `break`
leaves only the `switch`, so the loop continues with the connection
open. -/
def run_step (file_size : Nat) (req : page_request) : StepResult :=
  if req.magic ≠ PAGESERVER_MAGIC ∨ req.version ≠ PAGESERVER_VERSION then
    { sent_error := true, closes := true, handled := none }
  else if validate_request file_size req = false then
    { sent_error := true, closes := true, handled := none }
  else if req.cmd = PAGE_CMD_READ then
    { sent_error := false, closes := false, handled := some HandlerCall.h_read }
  else if req.cmd = PAGE_CMD_WRITE then
    { sent_error := false, closes := false, handled := some HandlerCall.h_write }
  else if req.cmd = PAGE_CMD_FLUSH then
    { sent_error := false, closes := false, handled := some HandlerCall.h_flush }
  else if req.cmd = PAGE_CMD_DISCARD then
    { sent_error := false, closes := false, handled := some HandlerCall.h_discard }
  else if req.cmd = PAGE_CMD_STAT then
    { sent_error := false, closes := false, handled := some HandlerCall.h_stat }
  else
    { sent_error := true, closes := false, handled := none }

end PageServer

end PageServerModel

section RefusalLemmas

variable {σ π : Type} [Inhabited π]

namespace TemplateCacheManager

/-- When the free stack is empty and the cache is not at `cache_size`
capacity (so no eviction is attempted), `insert` refuses every key:
duplicates on the residency check, fresh keys because no free slot
exists. -/
theorem insert_refused_no_free (P : Policy σ π) (s : CacheState σ π) (k v : Nat)
    (hfree : s.free_indices = []) (hnotfull : s.used_entries < s.cache_size) :
    (insert P s k v).1 = false := by
  unfold insert
  split
  · split
    · rfl
    · unfold insertMiss
      rw [if_neg (by omega)]
      unfold insertFresh
      rw [hfree]
  · unfold insertMiss
    rw [if_neg (by omega)]
    unfold insertFresh
    rw [hfree]

theorem get_dirty_go_length (es : Array (CacheEntry π)) (n : Nat) :
    ∀ (m : List (Nat × Nat)) (acc : List Nat), acc.length < max n 1 →
      (get_dirty_go es n m acc).length ≤ max n 1 := by
  intro m
  induction m with
  | nil =>
    intro acc hacc
    show acc.reverse.length ≤ max n 1
    rw [List.length_reverse]
    omega
  | cons p rest ih =>
    intro acc hacc
    rcases p with ⟨k, i⟩
    simp only [get_dirty_go]
    split
    · split
      · next hlen =>
        rw [List.length_reverse, List.length_cons]
        omega
      · next hlen =>
        apply ih
        rw [List.length_cons]
        rw [List.length_cons] at hlen
        omega
    · exact ih acc hacc

theorem get_dirty_go_mem (es : Array (CacheEntry π)) (n : Nat) :
    ∀ (m : List (Nat × Nat)) (acc : List Nat) (k : Nat),
      k ∈ get_dirty_go es n m acc →
      k ∈ acc ∨ ∃ i : Nat, (k, i) ∈ m ∧ (getE es (i : Int)).valid = true ∧
        (getE es (i : Int)).dirty = true := by
  intro m
  induction m with
  | nil =>
    intro acc k hk
    have hk1 : k ∈ acc.reverse := hk
    rw [List.mem_reverse] at hk1
    exact Or.inl hk1
  | cons p rest ih =>
    intro acc k hk
    rcases p with ⟨a, i⟩
    simp only [get_dirty_go] at hk
    split at hk
    · next hvd =>
      have hvd2 : (getE es (i : Int)).valid = true ∧ (getE es (i : Int)).dirty = true := by
        simpa using hvd
      split at hk
      · rw [List.mem_reverse] at hk
        rcases List.mem_cons.mp hk with hka | hkacc
        · exact Or.inr ⟨i, by rw [hka]; exact List.mem_cons_self .., hvd2.1, hvd2.2⟩
        · exact Or.inl hkacc
      · rcases ih (a :: acc) k hk with hacc | ⟨j, hj, hvj, hdj⟩
        · rcases List.mem_cons.mp hacc with hka | hkacc
          · exact Or.inr ⟨i, by rw [hka]; exact List.mem_cons_self .., hvd2.1, hvd2.2⟩
          · exact Or.inl hkacc
        · exact Or.inr ⟨j, List.mem_cons_of_mem _ hj, hvj, hdj⟩
    · rcases ih acc k hk with hacc | ⟨j, hj, hvj, hdj⟩
      · exact Or.inl hacc
      · exact Or.inr ⟨j, List.mem_cons_of_mem _ hj, hvj, hdj⟩

end TemplateCacheManager

theorem length_mset {β : Type} (k : Nat) (v : β) (m : List (Nat × β)) :
    (mset k v m).length = if mcontains k m then m.length else m.length + 1 := by
  induction m with
  | nil => rfl
  | cons p rest ih =>
    rcases p with ⟨a, w⟩
    by_cases hak : a = k
    · simp [mset, mcontains, mfind, hak]
    · have hc : mcontains k ((a, w) :: rest) = mcontains k rest := by
        simp [mcontains, mfind, hak]
      have hm : mset k v ((a, w) :: rest) = (a, w) :: mset k v rest := by
        show (if a = k then (k, v) :: rest else (a, w) :: mset k v rest) = _
        rw [if_neg hak]
      rw [hm, List.length_cons, ih, hc]
      split
      · rfl
      · rfl

namespace TemplateCacheManager

theorem pd_applyOp_keep (P : Policy σ π) (hS : Sane P) (s : CacheState σ π)
    (hW : Wf s) (i : Nat) (op : CacheOp) (hpd : PinnedDirtyAt s i)
    (hop : ∀ k, op ≠ CacheOp.op_invalidate k) (hclear : op ≠ CacheOp.op_clear)
    (hmc : ∀ k, op ≠ CacheOp.op_mark_clean k) (hup : ∀ k, op ≠ CacheOp.op_unpin k) :
    PinnedDirtyAt (applyOp P s op) i := by
  cases op with
  | op_lookup k =>
    show PinnedDirtyAt (lookup P s k).2.2 i
    unfold lookup
    split
    · split
      · exact pd_of_baseEq (hS.access_base _ _ _) hpd
      · exact hpd
    · exact hpd
  | op_insert k v => exact insert_preserves_pd P hS s hW hpd k v
  | op_mark_dirty k =>
    show PinnedDirtyAt (mark_dirty s k) i
    unfold mark_dirty
    split
    · split
      · exact setEntry_preserves_pd_flag hpd _ _ (fun e => rfl) (fun e h => Or.inr rfl)
      · exact hpd
    · exact hpd
  | op_mark_clean k => exact absurd rfl (hmc k)
  | op_pin k =>
    show PinnedDirtyAt (pin s k) i
    unfold pin
    split
    · split
      · refine setEntry_preserves_pd_flag hpd _ _ (fun e => rfl) ?_
        intro e h
        rcases h with hp | hd
        · exact Or.inl (by show 0 < e.pin_count + 1; omega)
        · exact Or.inr hd
      · exact hpd
    · exact hpd
  | op_unpin k => exact absurd rfl (hup k)
  | op_invalidate k => exact absurd rfl (hop k)
  | op_resize n =>
    show PinnedDirtyAt (resize P s n) i
    unfold resize
    have hW1 : Wf { s with cache_size := n } := hW
    have hpd1 : PinnedDirtyAt { s with cache_size := n } i := hpd
    exact resizeLoop_preserves_pd P hS _ _ hW1 hpd1
  | op_clear => exact absurd rfl hclear

theorem pd_runOps (P : Policy σ π) (hS : Sane P) :
    ∀ (ops : List CacheOp) (s : CacheState σ π), Wf s → ∀ i : Nat, PinnedDirtyAt s i →
      (∀ k, CacheOp.op_invalidate k ∉ ops) →
      CacheOp.op_clear ∉ ops →
      (∀ k, CacheOp.op_mark_clean k ∉ ops) →
      (∀ k, CacheOp.op_unpin k ∉ ops) →
      PinnedDirtyAt (runOps P s ops) i := by
  intro ops
  induction ops with
  | nil =>
    intro s _ i hpd _ _ _ _
    exact hpd
  | cons op rest ih =>
    intro s hW i hpd hinv hclear hmc hup
    have h1 : PinnedDirtyAt (applyOp P s op) i :=
      pd_applyOp_keep P hS s hW i op hpd
        (fun k hk => hinv k (by rw [← hk]; exact List.mem_cons_self ..))
        (fun hk => hclear (by rw [← hk]; exact List.mem_cons_self ..))
        (fun k hk => hmc k (by rw [← hk]; exact List.mem_cons_self ..))
        (fun k hk => hup k (by rw [← hk]; exact List.mem_cons_self ..))
    exact ih (applyOp P s op) (wf_applyOp P hS s hW op) i h1
      (fun k hk => hinv k (List.mem_cons_of_mem _ hk))
      (fun hk => hclear (List.mem_cons_of_mem _ hk))
      (fun k hk => hmc k (List.mem_cons_of_mem _ hk))
      (fun k hk => hup k (List.mem_cons_of_mem _ hk))

end TemplateCacheManager

end RefusalLemmas

section Claims

open TemplateCacheManager
open TemplateCacheManager.CacheOp

/-- Claim C1: the spec says `invalidate(key)` on a resident valid key
runs `on_remove`, marks the entry invalid, frees the slot, decrements
`used_entries` and does not count an eviction — all of which hold — and
that it deletes the key from the primary index, which the code does not
do: after `insert(1, 10); invalidate(1)` on an LRU cache of capacity 1
the slot is invalid, free and uncounted, yet `cache_map_` still maps
key 1 to slot 0. -/
theorem C1_invalidate_keeps_key_in_index :
    ((getE (invalidate lruPolicy (runOps lruPolicy (initCache lruPolicy 1)
        [op_insert 1 10]) 1).entries (0 : Int)).valid = false ∧
     (invalidate lruPolicy (runOps lruPolicy (initCache lruPolicy 1)
        [op_insert 1 10]) 1).used_entries = 0 ∧
     (invalidate lruPolicy (runOps lruPolicy (initCache lruPolicy 1)
        [op_insert 1 10]) 1).free_indices = [0] ∧
     (invalidate lruPolicy (runOps lruPolicy (initCache lruPolicy 1)
        [op_insert 1 10]) 1).evictions = 0 ∧
     mfind 1 (invalidate lruPolicy (runOps lruPolicy (initCache lruPolicy 1)
        [op_insert 1 10]) 1).cache_map = some 0) := by decide

/-- Claim C2 (amended): for every sane policy and every operation
sequence whose resizes stay within the constructed capacity (beyond it
the C++ writes out of range), after the sequence `used_entries` equals
the number of valid slab entries and is at most `|cache_map_|`;
equality with `|cache_map_|` fails because `invalidate` leaves stale
keys behind, and `used_entries ≤ capacity` fails when a shrinking
`resize` finds only pinned or dirty entries. -/
theorem C2_used_entries_invariant {σ π : Type} [Inhabited π] (P : Policy σ π)
    (hS : Sane P) (c : Nat) (ops : List CacheOp)
    (hres : ∀ n, CacheOp.op_resize n ∈ ops → n ≤ c) :
    (runOps P (initCache P c) ops).used_entries
        = countValid (runOps P (initCache P c) ops).entries ∧
      (runOps P (initCache P c) ops).used_entries
        ≤ (runOps P (initCache P c) ops).cache_map.length := by
  have hres1 : ∀ n, CacheOp.op_resize n ∈ ops → n ≤ (initCache P c).entries.size := by
    intro n hn
    rw [size_initCache]
    exact hres n hn
  have hcs : (initCache P c).cache_size ≤ (initCache P c).entries.size := by
    show c ≤ (initCache P c).entries.size
    rw [size_initCache]
  have h := c2_runOps P hS ops (initCache P c) (wf_initCache P c)
    (usedinv_initCache P c) (freebound_initCache P c) hcs hres1
  exact ⟨h.1.1, used_le_map_length _ h.1⟩

/-- Counterexample to the literal claim C2: after
`insert(1, 10); invalidate(1)` on LRU capacity 1 the index still holds
the stale key (`used_entries = 0` but `|cache_map_| = 1`), and after
pinning both entries of a capacity-2 cache and resizing to 1 the
count exceeds the capacity (`used_entries = 2 > cache_size = 1`). -/
theorem C2_counterexample :
    (runOps lruPolicy (initCache lruPolicy 1)
      [op_insert 1 10, op_invalidate 1]).used_entries = 0 ∧
    (runOps lruPolicy (initCache lruPolicy 1)
      [op_insert 1 10, op_invalidate 1]).cache_map.length = 1 ∧
    (runOps lruPolicy (initCache lruPolicy 2)
      [op_insert 1 10, op_insert 2 20, op_pin 1, op_pin 2,
       op_resize 1]).used_entries = 2 ∧
    (runOps lruPolicy (initCache lruPolicy 2)
      [op_insert 1 10, op_insert 2 20, op_pin 1, op_pin 2,
       op_resize 1]).cache_size = 1 := by decide

/-- Witness for C2 at a concrete input: LRU, capacity 1, the sequence
`insert(1, 10); invalidate(1)`. -/
theorem C2_witness :
    (runOps lruPolicy (initCache lruPolicy 1)
        [op_insert 1 10, op_invalidate 1]).used_entries
      = countValid (runOps lruPolicy (initCache lruPolicy 1)
        [op_insert 1 10, op_invalidate 1]).entries ∧
    (runOps lruPolicy (initCache lruPolicy 1)
        [op_insert 1 10, op_invalidate 1]).used_entries
      ≤ (runOps lruPolicy (initCache lruPolicy 1)
        [op_insert 1 10, op_invalidate 1]).cache_map.length :=
  C2_used_entries_invariant lruPolicy lruSane 1 [op_insert 1 10, op_invalidate 1]
    (by intro n hn; simp at hn)

/-- Claim C3 (amended): `get_dirty(n)` returns at most `max n 1` keys
(the size test runs only after a push, so `n = 0` still yields one
key), and every returned key is bound in the primary index to a slot
that is currently valid and dirty — but because the index can hold
stale keys, the returned key need not be the key stored in that slot,
so it need not be resident. -/
theorem C3_get_dirty_sound {σ π : Type} [Inhabited π] (s : CacheState σ π) (n : Nat) :
    (get_dirty s n).length ≤ max n 1 ∧
      ∀ k ∈ get_dirty s n, ∃ i : Nat, (k, i) ∈ s.cache_map ∧
        (getE s.entries (i : Int)).valid = true ∧
        (getE s.entries (i : Int)).dirty = true := by
  constructor
  · apply get_dirty_go_length
    exact lt_of_lt_of_le one_pos (le_max_right n 1)
  · intro k hk
    rcases get_dirty_go_mem s.entries n s.cache_map [] k hk with hfalse | h
    · exact absurd hfalse (List.not_mem_nil k)
    · exact h

/-- Counterexample to the literal claim C3: `get_dirty(0)` returns one
key, not at most zero; and on LRU capacity 1 after
`insert(1); invalidate(1); insert(2); mark_dirty(2)` the call
`get_dirty(2)` returns `[1, 2]` although the single slab slot holds
key 2 — the returned key 1 is stale, not the key of any valid dirty
entry. -/
theorem C3_counterexample :
    (get_dirty (runOps lruPolicy (initCache lruPolicy 1)
        [op_insert 1 10, op_mark_dirty 1]) 0).length = 1 ∧
    get_dirty (runOps lruPolicy (initCache lruPolicy 1)
        [op_insert 1 10, op_invalidate 1, op_insert 2 20,
         op_mark_dirty 2]) 2 = [1, 2] ∧
    (getE (runOps lruPolicy (initCache lruPolicy 1)
        [op_insert 1 10, op_invalidate 1, op_insert 2 20,
         op_mark_dirty 2]).entries (0 : Int)).key = 2 ∧
    (runOps lruPolicy (initCache lruPolicy 1)
        [op_insert 1 10, op_invalidate 1, op_insert 2 20,
         op_mark_dirty 2]).entries.size = 1 := by decide

/-- Claim C4: the ARC `capacity` field is initialised to 0 and never
assigned, so the B1 ghost-hit update `p = min(p + max(1, |B2|/|B1|),
capacity)` clamps `p` to 0 forever.  In scenario S6 (capacity 2:
`insert(1); insert(2); insert(3); insert(1)`) the readmitted insert of
key 1 hits B1 (so the update runs) and key 1 becomes resident again,
yet `p` remains 0 and `capacity` remains 0 — `p` never increases
toward the cache capacity. -/
theorem C4_arc_adaptation_dead :
    mfind 1 (runOps arcPolicy (initCache arcPolicy 2)
      [op_insert 1 10, op_insert 2 20, op_insert 3 30]).policy_data.b1_ghost
      = some true ∧
    (lookup arcPolicy (runOps arcPolicy (initCache arcPolicy 2)
      [op_insert 1 10, op_insert 2 20, op_insert 3 30, op_insert 1 11]) 1).1 = true ∧
    (runOps arcPolicy (initCache arcPolicy 2)
      [op_insert 1 10, op_insert 2 20, op_insert 3 30,
       op_insert 1 11]).policy_data.p = 0 ∧
    (runOps arcPolicy (initCache arcPolicy 2)
      [op_insert 1 10, op_insert 2 20, op_insert 3 30,
       op_insert 1 11]).policy_data.capacity = 0 := by decide

/-- Claim C5 (amended): `select_victim` does return an eligible entry
(whenever LFU's `get_eviction_candidate` nominates a slot, that slot
satisfies the eligibility predicate), but `min_count` is only a lapsing
heuristic: `on_remove` advances it by exactly one when a bucket
empties, so it can undershoot the smallest populated bucket (here
`min_count = 2` while the only valid entry has access count 3), and
the scan of `bucket_heads[min_count]` — which `operator[]`
default-inserts as head 0 — can evict an entry whose access count is
not minimal (key 1 with count 5 is evicted while key 2 with count 3
survives). -/
theorem C5_lfu_min_count_heuristic :
    (∀ (m : LFU.ManagerData) (es : Array (CacheEntry LFU.Payload))
        (can : CacheEntry LFU.Payload → Bool) (j : Nat),
      (lfuPolicy.get_eviction_candidate m es can).1 = some j →
      can (getE (lfuPolicy.get_eviction_candidate m es can).2.2 (j : Int)) = true) ∧
    (runOps lfuPolicy (initCache lfuPolicy 2)
      [op_insert 1 10, op_lookup 1, op_lookup 1, op_insert 2 20,
       op_invalidate 2]).policy_data.min_count = 2 ∧
    (getE (runOps lfuPolicy (initCache lfuPolicy 2)
      [op_insert 1 10, op_lookup 1, op_lookup 1, op_insert 2 20,
       op_invalidate 2]).entries (0 : Int)).pol.access_count = 3 ∧
    (lookup lfuPolicy (runOps lfuPolicy (initCache lfuPolicy 3)
      [op_insert 1 10, op_lookup 1, op_lookup 1, op_lookup 1, op_lookup 1,
       op_insert 2 20, op_lookup 2, op_lookup 2, op_insert 3 30,
       op_resize 2, op_resize 1]) 1).1 = false ∧
    (lookup lfuPolicy (runOps lfuPolicy (initCache lfuPolicy 3)
      [op_insert 1 10, op_lookup 1, op_lookup 1, op_lookup 1, op_lookup 1,
       op_insert 2 20, op_lookup 2, op_lookup 2, op_insert 3 30,
       op_resize 2, op_resize 1]) 2).1 = true := by
  refine ⟨lfuSane.cand_can, ?_⟩
  decide

/-- Counterexample to the literal claim C5: on LFU capacity 2 the
sequence `insert(1); lookup(1); lookup(1); insert(2); invalidate(2)`
leaves `min_count = 2` while the smallest access count among valid
entries is 3 (the sole valid entry, slot 0). -/
theorem C5_counterexample :
    (runOps lfuPolicy (initCache lfuPolicy 2)
      [op_insert 1 10, op_lookup 1, op_lookup 1, op_insert 2 20,
       op_invalidate 2]).policy_data.min_count = 2 ∧
    countValid (runOps lfuPolicy (initCache lfuPolicy 2)
      [op_insert 1 10, op_lookup 1, op_lookup 1, op_insert 2 20,
       op_invalidate 2]).entries = 1 ∧
    (getE (runOps lfuPolicy (initCache lfuPolicy 2)
      [op_insert 1 10, op_lookup 1, op_lookup 1, op_insert 2 20,
       op_invalidate 2]).entries (0 : Int)).valid = true ∧
    (getE (runOps lfuPolicy (initCache lfuPolicy 2)
      [op_insert 1 10, op_lookup 1, op_lookup 1, op_insert 2 20,
       op_invalidate 2]).entries (0 : Int)).pol.access_count = 3 := by decide

/-- Claim C6 (amended): in scenario S4 (CLOCK, capacity 3:
`insert(1); insert(2); insert(3); lookup(1); lookup(2); insert(4)`) it
is key 1 that is evicted, not key 3: fresh entries start with their
reference bit SET, so the first scan clears 1, 2 and 3 and a second
pass takes the hand's first entry, key 1; keys 2, 3 and 4 remain
resident and exactly one eviction happens. -/
theorem C6_clock_scenario_evicts_key1 :
    (lookup clockPolicy (runOps clockPolicy (initCache clockPolicy 3)
      [op_insert 1 10, op_insert 2 20, op_insert 3 30, op_lookup 1, op_lookup 2,
       op_insert 4 40]) 2).1 = true ∧
    (lookup clockPolicy (runOps clockPolicy (initCache clockPolicy 3)
      [op_insert 1 10, op_insert 2 20, op_insert 3 30, op_lookup 1, op_lookup 2,
       op_insert 4 40]) 3).1 = true ∧
    (lookup clockPolicy (runOps clockPolicy (initCache clockPolicy 3)
      [op_insert 1 10, op_insert 2 20, op_insert 3 30, op_lookup 1, op_lookup 2,
       op_insert 4 40]) 4).1 = true ∧
    (lookup clockPolicy (runOps clockPolicy (initCache clockPolicy 3)
      [op_insert 1 10, op_insert 2 20, op_insert 3 30, op_lookup 1, op_lookup 2,
       op_insert 4 40]) 1).1 = false ∧
    (runOps clockPolicy (initCache clockPolicy 3)
      [op_insert 1 10, op_insert 2 20, op_insert 3 30, op_lookup 1, op_lookup 2,
       op_insert 4 40]).evictions = 1 ∧
    (runOps clockPolicy (initCache clockPolicy 3)
      [op_insert 1 10, op_insert 2 20, op_insert 3 30, op_lookup 1, op_lookup 2,
       op_insert 4 40]).used_entries = 3 := by decide

/-- Counterexample to the literal claim C6: after the S4 sequence key 3
is still resident and key 1 is gone, contradicting "3 is evicted and
1, 2, 4 remain". -/
theorem C6_counterexample :
    (lookup clockPolicy (runOps clockPolicy (initCache clockPolicy 3)
      [op_insert 1 10, op_insert 2 20, op_insert 3 30, op_lookup 1, op_lookup 2,
       op_insert 4 40]) 3).1 = true ∧
    (lookup clockPolicy (runOps clockPolicy (initCache clockPolicy 3)
      [op_insert 1 10, op_insert 2 20, op_insert 3 30, op_lookup 1, op_lookup 2,
       op_insert 4 40]) 1).1 = false := by decide

/-- Claim C7: for every sane policy, a resident entry that is pinned or
dirty is never removed by eviction: across any operation sequence that
contains no `invalidate`, no `clear`, and none of the flag-weakening
operations `mark_clean`/`unpin` (which would make it legitimately
evictable), the entry stays resident, pinned-or-dirty — inserts at
full capacity and shrinking resizes must pass over it. -/
theorem C7_pinned_dirty_never_evicted {σ π : Type} [Inhabited π] (P : Policy σ π)
    (hS : Sane P) (s : CacheState σ π) (hW : Wf s) (i : Nat)
    (hpd : PinnedDirtyAt s i) (ops : List CacheOp)
    (hinv : ∀ k, CacheOp.op_invalidate k ∉ ops)
    (hclear : CacheOp.op_clear ∉ ops)
    (hmc : ∀ k, CacheOp.op_mark_clean k ∉ ops)
    (hup : ∀ k, CacheOp.op_unpin k ∉ ops) :
    PinnedDirtyAt (runOps P s ops) i :=
  pd_runOps P hS ops s hW i hpd hinv hclear hmc hup

/-- Witness for C7 at scenario S5 (LRU, capacity 2:
`insert(1); insert(2); pin(1); mark_dirty(2)`): slot 0 (pinned key 1)
survives `insert(3)`, and `insert(3)` is refused. -/
theorem C7_witness :
    PinnedDirtyAt (runOps lruPolicy (runOps lruPolicy (initCache lruPolicy 2)
      [op_insert 1 10, op_insert 2 20, op_pin 1, op_mark_dirty 2])
      [op_insert 3 30]) 0 ∧
    (TemplateCacheManager.insert lruPolicy (runOps lruPolicy (initCache lruPolicy 2)
      [op_insert 1 10, op_insert 2 20, op_pin 1, op_mark_dirty 2]) 3 30).1 = false :=
  ⟨C7_pinned_dirty_never_evicted lruPolicy lruSane
      (runOps lruPolicy (initCache lruPolicy 2)
        [op_insert 1 10, op_insert 2 20, op_pin 1, op_mark_dirty 2])
      (wf_runOps lruPolicy lruSane _ _ (wf_initCache lruPolicy 2)) 0
      ⟨by decide, Or.inl (by decide)⟩ [op_insert 3 30]
      (by intro k hk; simp at hk) (by simp) (by intro k hk; simp at hk)
      (by intro k hk; simp at hk),
    by decide⟩

/-- Claim C8 (amended): `ARC::on_remove` records the evicted key in the
matching ghost list with NO size cap: a T1 eviction grows `b1_ghost`
by one binding (unless the key is already present) and leaves
`b2_ghost` alone, symmetrically for T2 — nothing ever trims either
list, so ghost lists are unbounded rather than capped at the
capacity. -/
theorem C8_ghost_lists_unbounded :
    ∀ (m : ARC.ManagerData) (i : Nat) (es : Array (CacheEntry ARC.Payload)),
      ((getE es (i : Int)).pol.in_t1 = true →
        (ARC.on_remove m i es).1.b1_ghost.length =
          (if mcontains (getE es (i : Int)).key m.b1_ghost then m.b1_ghost.length
           else m.b1_ghost.length + 1) ∧
        (ARC.on_remove m i es).1.b2_ghost = m.b2_ghost) ∧
      ((getE es (i : Int)).pol.in_t1 = false →
        (ARC.on_remove m i es).1.b2_ghost.length =
          (if mcontains (getE es (i : Int)).key m.b2_ghost then m.b2_ghost.length
           else m.b2_ghost.length + 1) ∧
        (ARC.on_remove m i es).1.b1_ghost = m.b1_ghost) := by
  intro m i es
  constructor
  · intro ht
    simp only [ARC.on_remove, ht, if_true]
    exact ⟨length_mset _ _ _, by trivial⟩
  · intro hf
    simp only [ARC.on_remove, hf, Bool.false_eq_true, if_false]
    exact ⟨length_mset _ _ _, by trivial⟩

/-- Counterexample to the literal claim C8: on ARC capacity 1 the
sequence `insert(1); insert(2); insert(3)` leaves two keys in B1,
exceeding the capacity bound of 1 — no oldest ghost key fell off. -/
theorem C8_counterexample :
    (runOps arcPolicy (initCache arcPolicy 1)
      [op_insert 1 10, op_insert 2 20,
       op_insert 3 30]).policy_data.b1_ghost.length = 2 ∧
    (runOps arcPolicy (initCache arcPolicy 1)
      [op_insert 1 10, op_insert 2 20, op_insert 3 30]).cache_size = 1 := by decide

/-- Claim C9: the page server closes the connection on bad magic, bad
version, and failed offset/length validation (before dispatch), but an
unknown `cmd` byte only sends an ERROR and `break`s the `switch`, not
the receive loop: the connection stays open, contradicting the claimed
close-on-unknown-cmd. -/
theorem C9_unknown_cmd_keeps_connection :
    PageServer.run_step 4096
      { magic := PageServer.PAGESERVER_MAGIC, version := PageServer.PAGESERVER_VERSION,
        cmd := 6, offset := 0, length := 0 }
      = { sent_error := true, closes := false, handled := none } ∧
    PageServer.run_step 4096
      { magic := 0, version := PageServer.PAGESERVER_VERSION,
        cmd := 1, offset := 0, length := 0 }
      = { sent_error := true, closes := true, handled := none } ∧
    PageServer.run_step 4096
      { magic := PageServer.PAGESERVER_MAGIC, version := PageServer.PAGESERVER_VERSION,
        cmd := 1, offset := 4096, length := 1 }
      = { sent_error := true, closes := true, handled := none } ∧
    PageServer.run_step 4096
      { magic := PageServer.PAGESERVER_MAGIC, version := PageServer.PAGESERVER_VERSION,
        cmd := 1, offset := 2 ^ 64 - 1, length := 2 }
      = { sent_error := true, closes := true, handled := none } := by decide

/-- Claim C10: the slab and free list are allocated once at
construction: for a cache built with capacity `c`, after any operation
sequence the slab still holds `c` slots, at most `c` entries are valid
simultaneously, and whenever the free list is empty while
`used_entries < cache_size` (as after an enlarging `resize`), `insert`
returns refused. -/
theorem C10_slab_never_grows {σ π : Type} [Inhabited π] (P : Policy σ π)
    (hS : Sane P) (c : Nat) (ops : List CacheOp) :
    (runOps P (initCache P c) ops).entries.size = c ∧
    countValid (runOps P (initCache P c) ops).entries ≤ c ∧
    ∀ k v, (runOps P (initCache P c) ops).free_indices = [] →
      (runOps P (initCache P c) ops).used_entries
        < (runOps P (initCache P c) ops).cache_size →
      (TemplateCacheManager.insert P (runOps P (initCache P c) ops) k v).1 = false := by
  have hsz : (runOps P (initCache P c) ops).entries.size = c := by
    rw [size_runOps P hS, size_initCache]
  refine ⟨hsz, ?_, ?_⟩
  · have hle := countValid_le_size (runOps P (initCache P c) ops).entries
    rw [hsz] at hle
    exact hle
  · intro k v hfree hlt
    exact insert_refused_no_free P _ k v hfree hlt

/-- Witness for C10 at a concrete input: LRU built with capacity 2,
`resize(4); insert(1); insert(2)`; the free list is exhausted with
`used_entries = 2 < cache_size = 4`, and `insert(3)` is refused. -/
theorem C10_witness :
    (runOps lruPolicy (initCache lruPolicy 2)
        [op_resize 4, op_insert 1 10, op_insert 2 20]).entries.size = 2 ∧
    (TemplateCacheManager.insert lruPolicy (runOps lruPolicy (initCache lruPolicy 2)
        [op_resize 4, op_insert 1 10, op_insert 2 20]) 3 30).1 = false :=
  ⟨(C10_slab_never_grows lruPolicy lruSane 2
      [op_resize 4, op_insert 1 10, op_insert 2 20]).1,
    (C10_slab_never_grows lruPolicy lruSane 2
      [op_resize 4, op_insert 1 10, op_insert 2 20]).2.2 3 30
      (by decide) (by decide)⟩

end Claims
